import Mathlib

/-
Verification development for the ukvstore micro key-value store
(shallow embedding of src/lib/KVStore.js).

Modelling conventions:
* JS strings are represented by their UTF-8 byte sequences (List Nat);
  Buffer values are also byte lists.  The bufferValues normalization
  (Buffer.from / toString on well-formed data) is a tag change.
* The database file is a total function Nat -> Nat together with the
  eof cursor; a positioned write overwrites a contiguous range.
* Math.ceil(Math.log2 n) on the integer inputs the code produces is
  modelled exactly by ceilLog2; the float expressions size * 2 / 3 and
  entrySize * 1.2 are modelled by the exact ceilings (2n+2)/3 and
  (6n+4)/5: on the whole integer domain used by the code the doubles
  round to the same ladder choices.
* The free-block registry maps a block size to a stack of offsets; the
  JS array push/pop at the tail is modelled by cons/head (same LIFO
  discipline).
-/

namespace UKV

/-- Fuel-driven ceiling of binary logarithm: least k with n less-or-equal 2^k
(0 for n at most 1).  Models Math.ceil(Math.log2 n) on positive integers. -/
def clog2Aux : ℕ → ℕ → ℕ
  | 0, _ => 0
  | fuel + 1, n => if n ≤ 1 then 0 else clog2Aux fuel ((n + 1) / 2) + 1

/-- Ceiling of the binary logarithm, total (0 at 0 and 1). -/
def ceilLog2 (n : ℕ) : ℕ := clog2Aux n n

theorem clog2Aux_congr : ∀ n f₁ f₂, n ≤ f₁ → n ≤ f₂ → clog2Aux f₁ n = clog2Aux f₂ n := by
  intro n
  induction n using Nat.strong_induction_on with
  | _ n ih =>
    intro f₁ f₂ h₁ h₂
    match f₁, f₂ with
    | 0, 0 => rfl
    | 0, f₂ + 1 =>
      interval_cases n
      simp [clog2Aux]
    | f₁ + 1, 0 =>
      interval_cases n
      simp [clog2Aux]
    | f₁ + 1, f₂ + 1 =>
      simp only [clog2Aux]
      by_cases hn : n ≤ 1
      · simp [hn]
      · simp only [hn, if_false]
        have hlt : (n + 1) / 2 < n := by omega
        rw [ih _ hlt f₁ f₂ (by omega) (by omega)]

theorem ceilLog2_succ_div (n : ℕ) (h : 2 ≤ n) :
    ceilLog2 n = ceilLog2 ((n + 1) / 2) + 1 := by
  obtain ⟨m, rfl⟩ : ∃ m, n = m + 1 := ⟨n - 1, by omega⟩
  show clog2Aux (m + 1) (m + 1) = _
  simp only [clog2Aux]
  rw [if_neg (by omega)]
  rw [clog2Aux_congr ((m + 1 + 1) / 2) m ((m + 1 + 1) / 2) (by omega) (by omega)]
  rfl

/-- Characterization of the ceiling log: it is the least exponent whose power
of two dominates the argument. -/
theorem ceilLog2_le_iff (n m : ℕ) : ceilLog2 n ≤ m ↔ n ≤ 2 ^ m := by
  induction n using Nat.strong_induction_on generalizing m with
  | _ n ih =>
    by_cases hn : n ≤ 1
    · have h0 : ceilLog2 n = 0 := by
        match n, hn with
        | 0, _ => rfl
        | 1, _ => rfl
      rw [h0]
      have : 1 ≤ 2 ^ m := Nat.one_le_two_pow
      constructor <;> intro <;> omega
    · rw [ceilLog2_succ_div n (by omega)]
      match m with
      | 0 =>
        simp only [Nat.pow_zero]
        omega
      | m + 1 =>
        have hlt : (n + 1) / 2 < n := by omega
        rw [Nat.succ_le_succ_iff, ih _ hlt m]
        have : 2 ^ (m + 1) = 2 * 2 ^ m := by ring
        omega

theorem le_two_pow_ceilLog2 (n : ℕ) : n ≤ 2 ^ ceilLog2 n :=
  (ceilLog2_le_iff n (ceilLog2 n)).mp le_rfl

theorem lt_ceilLog2_iff (n m : ℕ) : m < ceilLog2 n ↔ 2 ^ m < n := by
  have h := ceilLog2_le_iff n m
  omega

/-
Block codec (KVStore.js lines 209-264).

Flags byte: bit7 FREE, bit6 LARGE_LPS, bit5 plus-half-size,
bits 0-4 the exponent e with block size 2^(e+4) (or 3*2^(e+3) with the
half bit).
-/

/-- extractBlockSize (line 227): 2 ^ (flags AND 31) * (24 if the half bit is
set else 16). -/
def extractBlockSize (flags : ℕ) : ℕ :=
  2 ^ (flags &&& 31) * (if flags &&& 32 ≠ 0 then 24 else 16)

/-- The clamped exponent chosen by blockSize (line 232): powerOf2 after the
equal/half comparison and the minimum clamp to 4. -/
def bsP (size : ℕ) : ℕ :=
  if ceilLog2 size = ceilLog2 ((2 * size + 2) / 3) then max (ceilLog2 size) 4
  else max (ceilLog2 ((2 * size + 2) / 3)) 4

/-- Whether blockSize chooses the half-step (plus 50 percent) variant. -/
def bsHalf (size : ℕ) : Bool :=
  if ceilLog2 size = ceilLog2 ((2 * size + 2) / 3) then false
  else decide (4 ≤ ceilLog2 ((2 * size + 2) / 3))

/-- blockSize (lines 232-253), result when called without toFlags: the chosen
physical block size for a payload of the given number of bytes. -/
def blockSize (size : ℕ) : ℕ :=
  if bsHalf size then 3 * 2 ^ (bsP size - 1) else 2 ^ bsP size

/-- The six size bits of the flags byte produced for a given payload size:
the clamped exponent minus 4, with bit5 for the half step. -/
def sizeBitsOf (size : ℕ) : ℕ :=
  (bsP size - 4) ||| (if bsHalf size then 32 else 0)

/-- blockSizeToFlags (lines 231-263): none models the BlockTooLarge throw
(exponent above 31); otherwise the two high bits of toFlags are kept and the
six size bits are installed. -/
def blockSizeToFlags (size toFlags : ℕ) : Option ℕ :=
  if 35 < bsP size then none
  else some ((toFlags &&& 192) ||| sizeBitsOf size)

/-- One rung of the block-size ladder: 2^(e+4) bytes, or 3*2^(e+3) with the
half step. -/
def LadderE (e : ℕ) (h : Bool) : ℕ :=
  if h then 3 * 2 ^ (e + 3) else 2 ^ (e + 4)

/-- A representable block size: some rung of the ladder with exponent at
most 31. -/
def IsLadder (sz : ℕ) : Prop :=
  ∃ e < 32, sz = 2 ^ (e + 4) ∨ sz = 3 * 2 ^ (e + 3)

instance (sz : ℕ) : Decidable (IsLadder sz) := by
  unfold IsLadder
  infer_instance

/- Finite facts about the flags byte, settled by computation over the 32
possible exponents. -/

theorem extract_bits : ∀ e < 32,
    extractBlockSize e = 2 ^ (e + 4) ∧
    extractBlockSize (e ||| 32) = 3 * 2 ^ (e + 3) ∧
    extractBlockSize (e ||| 64) = 2 ^ (e + 4) ∧
    extractBlockSize (e ||| 32 ||| 64) = 3 * 2 ^ (e + 3) ∧
    extractBlockSize (128 ||| e) = 2 ^ (e + 4) ∧
    extractBlockSize (128 ||| (e ||| 32)) = 3 * 2 ^ (e + 3) := by decide

theorem flag_bits : ∀ e < 32,
    e &&& 128 = 0 ∧ (e ||| 32) &&& 128 = 0 ∧
    (e ||| 64) &&& 128 = 0 ∧ (e ||| 32 ||| 64) &&& 128 = 0 ∧
    (128 ||| e) &&& 128 ≠ 0 ∧ (128 ||| (e ||| 32)) &&& 128 ≠ 0 ∧
    e &&& 64 = 0 ∧ (e ||| 32) &&& 64 = 0 ∧
    (e ||| 64) &&& 64 ≠ 0 ∧ (e ||| 32 ||| 64) &&& 64 ≠ 0 := by decide

theorem ladder_reencode : ∀ e < 32,
    bsP (2 ^ (e + 4)) = e + 4 ∧ bsHalf (2 ^ (e + 4)) = false ∧
    bsP (3 * 2 ^ (e + 3)) = e + 4 ∧ bsHalf (3 * 2 ^ (e + 3)) = true := by decide

/- Arithmetic characterizations of the two ceiling logs used by blockSize. -/

theorem bsQ_le_iff (n m : ℕ) : ceilLog2 ((2 * n + 2) / 3) ≤ m ↔ 2 * n ≤ 3 * 2 ^ m := by
  rw [ceilLog2_le_iff]
  generalize 2 ^ m = t
  omega

theorem bsQ_le_bsPraw (n : ℕ) : ceilLog2 ((2 * n + 2) / 3) ≤ ceilLog2 n := by
  rw [bsQ_le_iff]
  have := le_two_pow_ceilLog2 n
  omega

theorem bsPraw_le_bsQ_succ (n : ℕ) : ceilLog2 n ≤ ceilLog2 ((2 * n + 2) / 3) + 1 := by
  rw [ceilLog2_le_iff, pow_succ]
  have h := (bsQ_le_iff n (ceilLog2 ((2 * n + 2) / 3))).mp le_rfl
  omega

/-- Exhaustive case analysis of the sizing function: the 16-byte clamp, the
pure power-of-two branch, and the half-step branch. -/
theorem bs_cases (n : ℕ) :
    (bsHalf n = false ∧ bsP n = 4 ∧ n ≤ 16) ∨
    (bsHalf n = false ∧ bsP n = ceilLog2 n ∧ 4 ≤ ceilLog2 n ∧
      ceilLog2 n = ceilLog2 ((2 * n + 2) / 3)) ∨
    (bsHalf n = true ∧ bsP n = ceilLog2 ((2 * n + 2) / 3) ∧
      4 ≤ ceilLog2 ((2 * n + 2) / 3) ∧
      ceilLog2 n = ceilLog2 ((2 * n + 2) / 3) + 1) := by
  have h1 := bsQ_le_bsPraw n
  have h2 := bsPraw_le_bsQ_succ n
  unfold bsP bsHalf
  by_cases hpq : ceilLog2 n = ceilLog2 ((2 * n + 2) / 3)
  · rw [if_pos hpq, if_pos hpq]
    by_cases hp4 : 4 ≤ ceilLog2 n
    · right; left
      refine ⟨rfl, by omega, hp4, hpq⟩
    · left
      refine ⟨rfl, by omega, ?_⟩
      have := (ceilLog2_le_iff n 4).mp (by omega)
      norm_num at this
      omega
  · rw [if_neg hpq, if_neg hpq]
    by_cases hq4 : 4 ≤ ceilLog2 ((2 * n + 2) / 3)
    · right; right
      refine ⟨by simp [hq4], by omega, hq4, by omega⟩
    · left
      refine ⟨by simp [hq4], by omega, ?_⟩
      have := (bsQ_le_iff n 3).mp (by omega)
      norm_num at this
      omega

theorem bsP_ge_4 (n : ℕ) : 4 ≤ bsP n := by
  rcases bs_cases n with ⟨_, h, _⟩ | ⟨_, h, h4, _⟩ | ⟨_, h, h4, _⟩ <;> omega

theorem le_blockSize (n : ℕ) : n ≤ blockSize n := by
  unfold blockSize
  rcases bs_cases n with ⟨hh, hp, hn⟩ | ⟨hh, hp, h4, hpq⟩ | ⟨hh, hp, h4, hpq⟩
  · rw [hh, hp]
    norm_num
    omega
  · rw [hh, hp]
    simp only [Bool.false_eq_true, if_false]
    exact le_two_pow_ceilLog2 n
  · rw [hh, hp]
    simp only [if_true]
    have h3 := (bsQ_le_iff n (ceilLog2 ((2 * n + 2) / 3))).mp le_rfl
    have h5 : (2:ℕ) ^ ceilLog2 ((2 * n + 2) / 3) =
        2 * 2 ^ (ceilLog2 ((2 * n + 2) / 3) - 1) := by
      rw [← pow_succ']
      congr 1
      omega
    omega

theorem bsP_le_35 (n : ℕ) (hn : n ≤ 3 * 2 ^ 34) : bsP n ≤ 35 := by
  have hq35 : ceilLog2 ((2 * n + 2) / 3) ≤ 35 := by
    rw [bsQ_le_iff]
    norm_num
    omega
  rcases bs_cases n with ⟨_, h, _⟩ | ⟨_, h, _, hpq⟩ | ⟨_, h, _, _⟩ <;> omega

theorem blockSize_isLadder (n : ℕ) (h35 : bsP n ≤ 35) : IsLadder (blockSize n) := by
  have h4 := bsP_ge_4 n
  refine ⟨bsP n - 4, by omega, ?_⟩
  unfold blockSize
  cases bsHalf n with
  | true =>
    right
    simp only [if_true]
    rw [show bsP n - 4 + 3 = bsP n - 1 from by omega]
  | false =>
    left
    simp only [Bool.false_eq_true, if_false]
    rw [show bsP n - 4 + 4 = bsP n from by omega]

theorem blockSize_min (n m : ℕ) (hm : IsLadder m) (hnm : n ≤ m) : blockSize n ≤ m := by
  obtain ⟨e, he, hm⟩ := hm
  have h16 : (16:ℕ) ≤ 2 ^ (e + 4) := by
    calc (16:ℕ) = 2 ^ 4 := by norm_num
      _ ≤ 2 ^ (e + 4) := Nat.pow_le_pow_right (by omega) (by omega)
  have h8 : (8:ℕ) ≤ 2 ^ (e + 3) := by
    calc (8:ℕ) = 2 ^ 3 := by norm_num
      _ ≤ 2 ^ (e + 3) := Nat.pow_le_pow_right (by omega) (by omega)
  have hdouble : (2:ℕ) ^ (e + 4) = 2 * 2 ^ (e + 3) := by
    rw [← pow_succ']
  have hdouble3 : (2:ℕ) ^ (e + 3) = 2 * 2 ^ (e + 2) := by
    rw [← pow_succ']
  unfold blockSize
  rcases bs_cases n with ⟨hh, hp, hn16⟩ | ⟨hh, hp, h4, hpq⟩ | ⟨hh, hp, h4, hpq⟩
  · rw [hh, hp]
    norm_num
    rcases hm with rfl | rfl <;> omega
  · rw [hh, hp]
    simp only [Bool.false_eq_true, if_false]
    rcases hm with rfl | rfl
    · have hple : ceilLog2 n ≤ e + 4 := (ceilLog2_le_iff n (e + 4)).mpr hnm
      exact Nat.pow_le_pow_right (by omega) hple
    · have hqle : ceilLog2 ((2 * n + 2) / 3) ≤ e + 4 := by
        rw [bsQ_le_iff]
        omega
      have hple : ceilLog2 n ≤ e + 4 := by omega
      have := Nat.pow_le_pow_right (show 1 ≤ 2 by omega) hple
      omega
  · rw [hh, hp]
    simp only [if_true]
    rcases hm with rfl | rfl
    · have hple : ceilLog2 n ≤ e + 4 := (ceilLog2_le_iff n (e + 4)).mpr hnm
      have hqle : ceilLog2 ((2 * n + 2) / 3) - 1 ≤ e + 2 := by omega
      have := Nat.pow_le_pow_right (show 1 ≤ 2 by omega) hqle
      omega
    · have hqle : ceilLog2 ((2 * n + 2) / 3) ≤ e + 4 := by
        rw [bsQ_le_iff]
        omega
      have hqle1 : ceilLog2 ((2 * n + 2) / 3) - 1 ≤ e + 3 := by omega
      have := Nat.pow_le_pow_right (show 1 ≤ 2 by omega) hqle1
      omega

theorem blockSize_16_of_le_16 (n : ℕ) (hn : n ≤ 16) : blockSize n = 16 := by
  have hp : ceilLog2 n ≤ 4 := by
    rw [ceilLog2_le_iff]
    norm_num
    omega
  unfold blockSize
  rcases bs_cases n with ⟨hh, hbp, _⟩ | ⟨hh, hbp, h4, _⟩ | ⟨hh, hbp, h4, hpq⟩
  · rw [hh, hbp]
    norm_num
  · rw [hh, hbp]
    simp only [Bool.false_eq_true, if_false]
    have : ceilLog2 n = 4 := by omega
    rw [this]
    norm_num
  · omega

theorem extract_sizeBits (n : ℕ) (h35 : bsP n ≤ 35) :
    extractBlockSize (sizeBitsOf n) = blockSize n := by
  have h4 := bsP_ge_4 n
  have he : bsP n - 4 < 32 := by omega
  unfold sizeBitsOf blockSize
  cases bsHalf n with
  | true =>
    simp only [if_true]
    rw [(extract_bits (bsP n - 4) he).2.1]
    rw [show bsP n - 4 + 3 = bsP n - 1 from by omega]
  | false =>
    simp only [Bool.false_eq_true, if_false, Nat.or_zero]
    rw [(extract_bits (bsP n - 4) he).1]
    rw [show bsP n - 4 + 4 = bsP n from by omega]

theorem sizeBits_reencode (n : ℕ) (h35 : bsP n ≤ 35) :
    bsP (blockSize n) = bsP n ∧ bsHalf (blockSize n) = bsHalf n := by
  have h4 := bsP_ge_4 n
  have he : bsP n - 4 < 32 := by omega
  have hre := ladder_reencode (bsP n - 4) he
  unfold blockSize
  cases hb : bsHalf n with
  | true =>
    simp only [if_true]
    have h1 : 3 * 2 ^ (bsP n - 1) = 3 * 2 ^ (bsP n - 4 + 3) := by
      rw [show bsP n - 4 + 3 = bsP n - 1 from by omega]
    rw [h1, hre.2.2.1, hre.2.2.2]
    exact ⟨by omega, rfl⟩
  | false =>
    simp only [Bool.false_eq_true, if_false]
    have h1 : (2:ℕ) ^ bsP n = 2 ^ (bsP n - 4 + 4) := by
      rw [show bsP n - 4 + 4 = bsP n from by omega]
    rw [h1, hre.1, hre.2.1]
    exact ⟨by omega, rfl⟩

theorem isLadder_bsP_le (sz : ℕ) (h : IsLadder sz) :
    bsP sz ≤ 35 ∧ blockSize sz = sz := by
  obtain ⟨e, he, hm⟩ := h
  have hre := ladder_reencode e he
  rcases hm with rfl | rfl
  · refine ⟨by omega, ?_⟩
    unfold blockSize
    rw [hre.2.1, hre.1]
    simp
  · refine ⟨by omega, ?_⟩
    unfold blockSize
    rw [hre.2.2.2, hre.2.2.1]
    simp only [if_true]
    rw [show e + 4 - 1 = e + 3 from by omega]

/-
Record encoding (entryBuffer, lines 270-325).

The JS code fills a Buffer.allocUnsafe(blockSize) buffer with positioned
writes at strictly consecutive offsets: the flags byte at 0, the length
prefixes at 1.., the key bytes, the value bytes, and then (only when the
block is strictly larger than the record) a zero fill of the remainder.
The embedding therefore builds the block as the concatenation of those
regions; the junk parameter models the unspecified allocUnsafe contents,
which survive exactly in the region the code does not write.
-/

/-- writeUInt16BE. -/
def u16be (n : ℕ) : List ℕ := [n / 256, n % 256]

/-- writeUInt32BE. -/
def u32be (n : ℕ) : List ℕ :=
  [n / 16777216, n / 65536 % 256, n / 256 % 256, n % 256]

/-- Large length prefixes are used when the key exceeds 255 bytes or the
value exceeds 65535 bytes (line 275). -/
def isLargeKV (key value : List ℕ) : Bool :=
  decide (255 < key.length) || decide (65535 < value.length)

/-- The length-prefix bytes: 1-byte key length and 2-byte value length in
the small form, 2-byte and 4-byte big-endian in the large form. -/
def lpsBytes (large : Bool) (kl vl : ℕ) : List ℕ :=
  if large then u16be kl ++ u32be vl else [kl] ++ u16be vl

/-- entrySize (line 276): flags byte, prefixes, key bytes, value bytes. -/
def entrySizeOf (key value : List ℕ) : ℕ :=
  1 + (if isLargeKV key value then 6 else 3) + key.length + value.length

/-- A block as an abstract object: either free (with its physical size) or
live with a key, value bytes and physical size. -/
inductive BlockInfo where
  | free : ℕ → BlockInfo
  | live : List ℕ → List ℕ → ℕ → BlockInfo
deriving DecidableEq

def bSize : BlockInfo → ℕ
  | .free sz => sz
  | .live _ _ sz => sz

/-- Canonical flags byte of a live block of a given size. -/
def liveFlags (sz : ℕ) (large : Bool) : ℕ :=
  if large then sizeBitsOf sz ||| 64 else sizeBitsOf sz

/-- Flags byte written by clearBlock: FREE bit plus the size bits. -/
def freeFlags (sz : ℕ) : ℕ := 128 ||| sizeBitsOf sz

/-- The canonical byte image of a block.  A free block (clearBlock, lines
539-551) is its flags byte followed by zeros; a live block is the record
followed by zero padding. -/
def blockBytes : BlockInfo → List ℕ
  | .free sz => freeFlags sz :: List.replicate (sz - 1) 0
  | .live k v sz =>
      liveFlags sz (isLargeKV k v) ::
        (lpsBytes (isLargeKV k v) k.length v.length ++ k ++ v ++
          List.replicate (sz - entrySizeOf k v) 0)

/-- The block bytes built by entryBuffer for chosen size bs and size-bits
flags0: record regions in write order, and the junk remnant exactly where
the code writes nothing (no fill happens when the record fills the block).
Also returns the value sub-offset and length stored in mapVToPopulate. -/
def mkEntryBuf (junk : ℕ → ℕ) (k v : List ℕ) (bs flags0 : ℕ) : List ℕ × ℕ × ℕ :=
  ((if isLargeKV k v then flags0 ||| 64 else flags0) ::
     (lpsBytes (isLargeKV k v) k.length v.length ++ k ++ v ++
       (if entrySizeOf k v < bs then List.replicate (bs - entrySizeOf k v) 0
        else ((List.range bs).map junk).drop (entrySizeOf k v))),
   (if isLargeKV k v then 7 else 4) + k.length, v.length)

/-- entryBuffer (lines 270-325).  none models the JS throws: length-prefix
overflow in writeUInt16BE/writeUInt32BE, or BlockTooLarge from
blockSizeToFlags.  The update path passes the existing block size; a record
that fits keeps that size, otherwise the block is sized from
entrySize * 1.2 (modelled exactly as the ceiling (6n+4)/5). -/
def entryBufferRaw (junk : ℕ → ℕ) (key value : List ℕ) (existingSize : ℕ) :
    Option (List ℕ × ℕ × ℕ) :=
  if 65535 < key.length ∨ 4294967295 < value.length then none
  else if entrySizeOf key value ≤ existingSize then
    (blockSizeToFlags existingSize 0).map
      (fun flags0 => mkEntryBuf junk key value existingSize flags0)
  else
    (blockSizeToFlags ((6 * entrySizeOf key value + 4) / 5) 0).map
      (fun flags0 => mkEntryBuf junk key value (extractBlockSize flags0) flags0)

/-- The store operations build entry buffers with this fixed allocation
filler; the canonical-form lemma shows the choice is irrelevant. -/
def entryBuffer (key value : List ℕ) (existingSize : ℕ) : Option (List ℕ × ℕ × ℕ) :=
  entryBufferRaw (fun _ => 0) key value existingSize

theorem ladder_16_le (sz : ℕ) (h : IsLadder sz) : 16 ≤ sz := by
  obtain ⟨e, he, hm⟩ := h
  have h1 : (16:ℕ) ≤ 2 ^ (e + 4) := by
    calc (16:ℕ) = 2 ^ 4 := by norm_num
      _ ≤ 2 ^ (e + 4) := Nat.pow_le_pow_right (by omega) (by omega)
  have h2 : (8:ℕ) ≤ 2 ^ (e + 3) := by
    calc (8:ℕ) = 2 ^ 3 := by norm_num
      _ ≤ 2 ^ (e + 3) := Nat.pow_le_pow_right (by omega) (by omega)
  rcases hm with rfl | rfl <;> omega

theorem sizeBitsOf_blockSize (n : ℕ) (h35 : bsP n ≤ 35) :
    sizeBitsOf (blockSize n) = sizeBitsOf n := by
  have h := sizeBits_reencode n h35
  unfold sizeBitsOf
  rw [h.1, h.2]

theorem blockSizeToFlags_some (sz t flags : ℕ) (h : blockSizeToFlags sz t = some flags) :
    bsP sz ≤ 35 ∧ flags = (t &&& 192) ||| sizeBitsOf sz := by
  unfold blockSizeToFlags at h
  by_cases h35 : 35 < bsP sz
  · rw [if_pos h35] at h
    exact absurd h (by simp)
  · rw [if_neg h35] at h
    simp only [Option.some.injEq] at h
    exact ⟨by omega, h.symm⟩

theorem lpsBytes_length (large : Bool) (kl vl : ℕ) :
    (lpsBytes large kl vl).length = if large then 6 else 3 := by
  cases large <;> simp [lpsBytes, u16be, u32be]

theorem blockBytes_length_live (k v : List ℕ) (sz : ℕ) (h : entrySizeOf k v ≤ sz) :
    (blockBytes (BlockInfo.live k v sz)).length = sz := by
  have hl := lpsBytes_length (isLargeKV k v) k.length v.length
  have he : entrySizeOf k v =
      1 + (if isLargeKV k v then 6 else 3) + k.length + v.length := rfl
  simp only [blockBytes, List.length_cons, List.length_append, List.length_replicate, hl]
  omega

theorem blockBytes_length_free (sz : ℕ) (h : 1 ≤ sz) :
    (blockBytes (BlockInfo.free sz)).length = sz := by
  simp only [blockBytes, List.length_cons, List.length_replicate]
  omega

theorem mkEntryBuf_spec (junk : ℕ → ℕ) (k v : List ℕ) (bs flags0 : ℕ)
    (hsz : entrySizeOf k v ≤ bs) (hfl : flags0 = sizeBitsOf bs) :
    mkEntryBuf junk k v bs flags0 =
      (blockBytes (BlockInfo.live k v bs),
        (if isLargeKV k v then 7 else 4) + k.length, v.length) := by
  have hlive : blockBytes (BlockInfo.live k v bs) =
      liveFlags bs (isLargeKV k v) ::
        (lpsBytes (isLargeKV k v) k.length v.length ++ k ++ v ++
          List.replicate (bs - entrySizeOf k v) 0) := rfl
  rw [hlive]
  unfold mkEntryBuf liveFlags
  rw [hfl]
  by_cases hc : entrySizeOf k v < bs
  · rw [if_pos hc]
  · rw [if_neg hc]
    have hbs : bs - entrySizeOf k v = 0 := by omega
    have hdrop : ((List.range bs).map junk).drop (entrySizeOf k v) = [] := by
      apply List.drop_eq_nil_of_le
      simp
      omega
    rw [hbs, hdrop]
    rfl

/-- Canonical form of the entry buffer: the layout is the flags byte, the
length prefixes, the key, the value and a zero padding, independent of the
allocUnsafe contents; the value offset/length and the chosen block size per
branch. -/
theorem entryBufferRaw_spec (junk : ℕ → ℕ) (k v : List ℕ) (es : ℕ)
    (buf : List ℕ) (vo vs : ℕ)
    (h : entryBufferRaw junk k v es = some (buf, vo, vs)) :
    vo = (if isLargeKV k v then 7 else 4) + k.length ∧
    vs = v.length ∧ k.length ≤ 65535 ∧ v.length ≤ 4294967295 ∧
    entrySizeOf k v ≤ buf.length ∧
    buf = blockBytes (BlockInfo.live k v buf.length) ∧
    ((entrySizeOf k v ≤ es ∧ buf.length = es) ∨
      (es < entrySizeOf k v ∧
        buf.length = blockSize ((6 * entrySizeOf k v + 4) / 5) ∧
        IsLadder buf.length)) := by
  unfold entryBufferRaw at h
  by_cases h1 : 65535 < k.length ∨ 4294967295 < v.length
  · rw [if_pos h1] at h
    exact absurd h (by simp)
  · rw [if_neg h1] at h
    push_neg at h1
    by_cases h2 : entrySizeOf k v ≤ es
    · rw [if_pos h2] at h
      cases hm : blockSizeToFlags es 0 with
      | none =>
        rw [hm] at h
        exact absurd h (by simp)
      | some flags0 =>
        rw [hm, Option.map_some'] at h
        obtain ⟨h35, hfl⟩ := blockSizeToFlags_some es 0 flags0 hm
        have hfl' : flags0 = sizeBitsOf es := by
          rw [hfl]
          simp
        rw [mkEntryBuf_spec junk k v es flags0 h2 hfl'] at h
        simp only [Option.some.injEq, Prod.mk.injEq] at h
        obtain ⟨hbuf, hvo, hvs⟩ := h
        have hlen : buf.length = es := by
          rw [← hbuf] at *
          exact blockBytes_length_live k v es h2
        refine ⟨hvo.symm, hvs.symm, h1.1, h1.2, by omega, ?_, Or.inl ⟨h2, hlen⟩⟩
        rw [hlen, ← hbuf]
    · rw [if_neg h2] at h
      cases hm : blockSizeToFlags ((6 * entrySizeOf k v + 4) / 5) 0 with
      | none =>
        rw [hm] at h
        exact absurd h (by simp)
      | some flags0 =>
        rw [hm, Option.map_some'] at h
        obtain ⟨h35, hfl⟩ := blockSizeToFlags_some _ 0 flags0 hm
        have hfl' : flags0 = sizeBitsOf ((6 * entrySizeOf k v + 4) / 5) := by
          rw [hfl]
          simp
        have hesm : entrySizeOf k v ≤ (6 * entrySizeOf k v + 4) / 5 := by omega
        have hext : extractBlockSize flags0 =
            blockSize ((6 * entrySizeOf k v + 4) / 5) := by
          rw [hfl']
          exact extract_sizeBits _ h35
        have hszle : entrySizeOf k v ≤ extractBlockSize flags0 := by
          rw [hext]
          calc entrySizeOf k v ≤ (6 * entrySizeOf k v + 4) / 5 := hesm
            _ ≤ blockSize ((6 * entrySizeOf k v + 4) / 5) := le_blockSize _
        have hfl2 : flags0 = sizeBitsOf (extractBlockSize flags0) := by
          rw [hext, sizeBitsOf_blockSize _ h35, hfl']
        rw [mkEntryBuf_spec junk k v (extractBlockSize flags0) flags0 hszle hfl2] at h
        simp only [Option.some.injEq, Prod.mk.injEq] at h
        obtain ⟨hbuf, hvo, hvs⟩ := h
        have hlen : buf.length = extractBlockSize flags0 := by
          rw [← hbuf] at *
          exact blockBytes_length_live k v _ hszle
        refine ⟨hvo.symm, hvs.symm, h1.1, h1.2, by omega, ?_,
          Or.inr ⟨by omega, by rw [hlen, hext], ?_⟩⟩
        · rw [hlen, ← hbuf]
        · rw [hlen, hext]
          exact blockSize_isLadder _ h35


theorem bsP_le_35_of_le (n : ℕ) (h : n ≤ 2 ^ 35) : bsP n ≤ 35 := by
  have hp : ceilLog2 n ≤ 35 := (ceilLog2_le_iff n 35).mpr h
  have hq := bsQ_le_bsPraw n
  rcases bs_cases n with ⟨_, h1, _⟩ | ⟨_, h1, _, _⟩ | ⟨_, h1, _, _⟩ <;> omega

theorem freeFlags_facts (sz : ℕ) (h : IsLadder sz) :
    freeFlags sz &&& 128 ≠ 0 ∧ extractBlockSize (freeFlags sz) = sz := by
  obtain ⟨e, he, hm⟩ := h
  have hfb := flag_bits e he
  have heb := extract_bits e he
  have hre := ladder_reencode e he
  rcases hm with rfl | rfl
  · have hsb : sizeBitsOf (2 ^ (e + 4)) = e := by
      unfold sizeBitsOf
      rw [hre.1, hre.2.1]
      simp
    unfold freeFlags
    rw [hsb]
    exact ⟨hfb.2.2.2.2.1, heb.2.2.2.2.1⟩
  · have hsb : sizeBitsOf (3 * 2 ^ (e + 3)) = e ||| 32 := by
      unfold sizeBitsOf
      rw [hre.2.2.1, hre.2.2.2]
      simp
    unfold freeFlags
    rw [hsb]
    exact ⟨hfb.2.2.2.2.2.1, heb.2.2.2.2.2⟩

theorem liveFlags_facts (sz : ℕ) (large : Bool) (h : IsLadder sz) :
    liveFlags sz large &&& 128 = 0 ∧
    (liveFlags sz large &&& 64 ≠ 0 ↔ large = true) ∧
    extractBlockSize (liveFlags sz large) = sz := by
  obtain ⟨e, he, hm⟩ := h
  have hfb := flag_bits e he
  have heb := extract_bits e he
  have hre := ladder_reencode e he
  rcases hm with rfl | rfl
  · have hsb : sizeBitsOf (2 ^ (e + 4)) = e := by
      unfold sizeBitsOf
      rw [hre.1, hre.2.1]
      simp
    unfold liveFlags
    rw [hsb]
    cases large
    · simp only [Bool.false_eq_true, if_false]
      refine ⟨hfb.1, ?_, heb.1⟩
      simp [hfb.2.2.2.2.2.2.1]
    · simp only [if_true]
      refine ⟨hfb.2.2.1, ?_, heb.2.2.1⟩
      simp [hfb.2.2.2.2.2.2.2.2.1]
  · have hsb : sizeBitsOf (3 * 2 ^ (e + 3)) = e ||| 32 := by
      unfold sizeBitsOf
      rw [hre.2.2.1, hre.2.2.2]
      simp
    unfold liveFlags
    rw [hsb]
    cases large
    · simp only [Bool.false_eq_true, if_false]
      refine ⟨hfb.2.1, ?_, heb.2.1⟩
      simp [hfb.2.2.2.2.2.2.2.1]
    · simp only [if_true]
      refine ⟨hfb.2.2.2.1, ?_, heb.2.2.2.1⟩
      simp [hfb.2.2.2.2.2.2.2.2.2]

theorem getD_append_add (l1 l2 : List ℕ) (i : ℕ) :
    (l1 ++ l2).getD (l1.length + i) 0 = l2.getD i 0 := by
  induction l1 with
  | nil => simp
  | cons a t ih =>
    simpa [List.getD_cons_succ, Nat.succ_add] using ih

theorem getD_append_lt (l1 l2 : List ℕ) (i : ℕ) (h : i < l1.length) :
    (l1 ++ l2).getD i 0 = l1.getD i 0 := by
  induction l1 generalizing i with
  | nil => simp at h
  | cons a t ih =>
    cases i with
    | zero => simp
    | succ j =>
      simp only [List.length_cons] at h
      simpa [List.getD_cons_succ] using ih j (by omega)

theorem getD_replicate_zero (n i : ℕ) : (List.replicate n (0:ℕ)).getD i 0 = 0 := by
  induction n generalizing i with
  | zero => simp
  | succ m ih =>
    cases i with
    | zero => simp [List.replicate]
    | succ j =>
      rw [show List.replicate (m + 1) (0:ℕ) = 0 :: List.replicate m 0 from rfl,
        List.getD_cons_succ]
      exact ih j

theorem getD_append_ge (l1 l2 : List ℕ) (n : ℕ) (h : l1.length ≤ n) :
    (l1 ++ l2).getD n 0 = l2.getD (n - l1.length) 0 := by
  have h1 : n = l1.length + (n - l1.length) := by omega
  rw [h1, getD_append_add]
  congr 1
  omega

theorem mkEntryBuf_junk_irrel (j₁ j₂ : ℕ → ℕ) (k v : List ℕ) (bs flags0 : ℕ) :
    mkEntryBuf j₁ k v bs flags0 = mkEntryBuf j₂ k v bs flags0 := by
  unfold mkEntryBuf
  by_cases hc : entrySizeOf k v < bs
  · rw [if_pos hc, if_pos hc]
  · rw [if_neg hc, if_neg hc]
    have h1 : ((List.range bs).map j₁).drop (entrySizeOf k v) = [] := by
      apply List.drop_eq_nil_of_le
      simp
      omega
    have h2 : ((List.range bs).map j₂).drop (entrySizeOf k v) = [] := by
      apply List.drop_eq_nil_of_le
      simp
      omega
    rw [h1, h2]

theorem entryBufferRaw_junk_irrel (j₁ j₂ : ℕ → ℕ) (k v : List ℕ) (es : ℕ) :
    entryBufferRaw j₁ k v es = entryBufferRaw j₂ k v es := by
  unfold entryBufferRaw
  by_cases h1 : 65535 < k.length ∨ 4294967295 < v.length
  · rw [if_pos h1, if_pos h1]
  · rw [if_neg h1, if_neg h1]
    by_cases h2 : entrySizeOf k v ≤ es
    · rw [if_pos h2, if_pos h2]
      congr 1
      funext flags0
      exact mkEntryBuf_junk_irrel j₁ j₂ k v es flags0
    · rw [if_neg h2, if_neg h2]
      congr 1
      funext flags0
      exact mkEntryBuf_junk_irrel j₁ j₂ k v _ flags0

/-
The store model (KVStore.js lines 36-205 and 455-598).
-/

/-- A value as seen by the engine: a UTF-8 string or a byte Buffer, both
carried as their byte sequences. -/
inductive Value where
  | str : List ℕ → Value
  | buf : List ℕ → Value
deriving DecidableEq

def Value.bytes : Value → List ℕ
  | .str b => b
  | .buf b => b

/-- Value normalization in set (lines 87-98): a Buffer is decoded to a
string when bufferValues is false; a string is encoded to a Buffer when it
is true. -/
def normalize (bufferValues : Bool) : Value → Value
  | .buf b => if bufferValues then .buf b else .str b
  | .str s => if bufferValues then .buf s else .str s

/-- Decoding of raw bytes read back from the file per bufferValues
(lines 424-432, 469-471). -/
def decodeVal (bufferValues : Bool) (b : List ℕ) : Value :=
  if bufferValues then .buf b else .str b

/-- An index entry (the mapV object): cached value v (with inMemoryValues),
offset o and physical size s of the containing block, and the value
sub-offset/length vo and vs (populated only without cached values).
Fields the JS leaves undefined are modelled as none / 0. -/
structure MapV where
  v : Option Value
  o : ℕ
  s : ℕ
  vo : ℕ
  vs : ℕ
deriving DecidableEq

/-- JS Map lookup on the insertion-ordered association list. -/
def mapGet : List (List ℕ × MapV) → List ℕ → Option MapV
  | [], _ => none
  | (k', mv) :: t, k => if k' = k then some mv else mapGet t k

/-- JS Map set: replace in place if the key exists, else append. -/
def mapSet : List (List ℕ × MapV) → List ℕ → MapV → List (List ℕ × MapV)
  | [], k, mv => [(k, mv)]
  | (k', mv') :: t, k, mv =>
      if k' = k then (k, mv) :: t else (k', mv') :: mapSet t k mv

/-- JS Map delete. -/
def mapDelete : List (List ℕ × MapV) → List ℕ → List (List ℕ × MapV)
  | [], _ => []
  | (k', mv') :: t, k => if k' = k then t else (k', mv') :: mapDelete t k

/-- Positioned write of a whole buffer: file.write(buffer, 0, length, pos). -/
def writeAt (f : ℕ → ℕ) (pos : ℕ) (data : List ℕ) : ℕ → ℕ :=
  fun i => if pos ≤ i ∧ i < pos + data.length then data.getD (i - pos) 0 else f i

def emptyFB : ℕ → List ℕ := fun _ => []

/-- Registry push (freeBlocks maps a size to a stack; the head is the most
recently freed offset). -/
def fbPush (fb : ℕ → List ℕ) (sz off : ℕ) : ℕ → List ℕ :=
  fun s => if s = sz then off :: fb s else fb s

/-- Replace one stack of the registry (used after a pop). -/
def fbSet (fb : ℕ → List ℕ) (sz : ℕ) (l : List ℕ) : ℕ → List ℕ :=
  fun s => if s = sz then l else fb s

/-- The engine state.  filePath is whether a backing file is configured
(the constructor default is null); eof is the end-of-file cursor. -/
structure Store where
  filePath : Bool
  bufferValues : Bool
  inMemoryValues : Bool
  map : List (List ℕ × MapV)
  file : ℕ → ℕ
  eof : ℕ
  freeBlocks : ℕ → List ℕ

/-- A fresh engine over a new (empty) database file. -/
def freshStore (bufferValues inMemoryValues : Bool) : Store :=
  { filePath := true, bufferValues := bufferValues,
    inMemoryValues := inMemoryValues, map := [],
    file := fun _ => 0, eof := 0, freeBlocks := emptyFB }

/-- has (lines 63-65): pure index probe. -/
def hasOp (S : Store) (k : List ℕ) : Bool := (mapGet S.map k).isSome

/-- size (lines 52-56). -/
def sizeOp (S : Store) : ℕ := S.map.length

/-- A positioned read of len bytes. -/
def readBytes (f : ℕ → ℕ) (off len : ℕ) : List ℕ :=
  (List.range len).map (fun i => f (off + i))

/-- get (lines 69-80): the cached value with inMemoryValues, otherwise
retrieveDB (lines 456-479), a positioned read of vs bytes at o + vo
decoded per bufferValues; retrieveDB yields null without a file. -/
def getOp (S : Store) (k : List ℕ) : Option Value :=
  (mapGet S.map k).elim none (fun mv =>
    if S.inMemoryValues then mv.v
    else if S.filePath then
      some (decodeVal S.bufferValues (readBytes S.file (mv.o + mv.vo) mv.vs))
    else none)

/-- insertEntryBuffer (lines 503-518): pop a free block of exactly the
buffer length if the registry has one, else append at eof and advance it.
Returns the chosen offset, the new eof and the new registry. -/
def place (fb : ℕ → List ℕ) (eof len : ℕ) : ℕ × ℕ × (ℕ → List ℕ) :=
  match fb len with
  | off :: rest => (off, eof, fbSet fb len rest)
  | [] => (eof, eof + len, fb)

/-- The index entry created by the insert path: cached value when
inMemoryValues, block coordinates from the placement, value sub-offset and
length from mapVToPopulate (only without cached values). -/
def newMapV (imv : Bool) (v' : Value) (o s vo vs : ℕ) : MapV :=
  { v := if imv then some v' else none, o := o, s := s,
    vo := if imv then 0 else vo, vs := if imv then 0 else vs }

/-- insert path of set (lines 104-108) with insertDB (lines 483-499): the
entry is created in the index, then the buffer is placed and written;
without a file insertDB returns null immediately (no file fields change). -/
def insertOp (S : Store) (k : List ℕ) (v' : Value) : Option Store :=
  if S.filePath = false then
    some { S with map := mapSet S.map k (newMapV S.inMemoryValues v' 0 0 0 0) }
  else
    (entryBuffer k v'.bytes 0).map (fun bvv =>
      let pl := place S.freeBlocks S.eof bvv.1.length
      let nmv := newMapV S.inMemoryValues v' pl.1 bvv.1.length bvv.2.1 bvv.2.2
      { S with
        map := mapSet S.map k nmv
        file := writeAt S.file pl.1 bvv.1
        eof := pl.2.1
        freeBlocks := pl.2.2 })

/-- The entry mutation done by the update path: set(k,v) caches the new
value on the existing entry when inMemoryValues (line 101); otherwise
entryBuffer populates the value sub-offset and length (lines 313-317). -/
def updMapV (imv : Bool) (mv : MapV) (v' : Value) (vo vs : ℕ) : MapV :=
  if imv then { mv with v := some v' } else { mv with vo := vo, vs := vs }

/-- update path of set (lines 100-103) with updateDB (lines 555-579):
in-place rewrite when the new record fits the existing block, otherwise
clearBlock on the old block and placement as for an insert; without a file
updateDB returns null immediately. -/
def updateOp (S : Store) (k : List ℕ) (mv : MapV) (v' : Value) : Option Store :=
  if S.filePath = false then
    some { S with map := mapSet S.map k (updMapV S.inMemoryValues mv v' mv.vo mv.vs) }
  else
    (entryBuffer k v'.bytes mv.s).bind (fun bvv =>
      if mv.s < bvv.1.length then
        (blockSizeToFlags mv.s 128).map (fun cf =>
          let fileA := writeAt S.file mv.o (cf :: List.replicate (mv.s - 1) 0)
          let fbA := fbPush S.freeBlocks mv.s mv.o
          let pl := place fbA S.eof bvv.1.length
          let nmv := { updMapV S.inMemoryValues mv v' bvv.2.1 bvv.2.2 with o := pl.1, s := bvv.1.length }
          { S with
            map := mapSet S.map k nmv
            file := writeAt fileA pl.1 bvv.1
            eof := pl.2.1
            freeBlocks := pl.2.2 })
      else
        let nmv := { updMapV S.inMemoryValues mv v' bvv.2.1 bvv.2.2 with s := bvv.1.length }
        some { S with map := mapSet S.map k nmv, file := writeAt S.file mv.o bvv.1 })

/-- set (lines 84-109): normalize the value, then update or insert. -/
def setOp (S : Store) (k : List ℕ) (v : Value) : Option Store :=
  (mapGet S.map k).elim (insertOp S k (normalize S.bufferValues v))
    (fun mv => updateOp S k mv (normalize S.bufferValues v))

/-- delete (lines 113-121) with deleteDB (lines 522-535) and clearBlock
(lines 539-551): drop the entry, overwrite the block with the FREE flags
byte followed by zeros, push the offset for that size; a missing key is a
no-op and without a file only the index changes. -/
def deleteOp (S : Store) (k : List ℕ) : Option Store :=
  (mapGet S.map k).elim (some S) (fun mv =>
    if S.filePath = false then some { S with map := mapDelete S.map k }
    else
      (blockSizeToFlags mv.s 128).map (fun cf =>
        { S with
          map := mapDelete S.map k
          file := writeAt S.file mv.o (cf :: List.replicate (mv.s - 1) 0)
          freeBlocks := fbPush S.freeBlocks mv.s mv.o }))

/-- clear (lines 125-128) with clearDB (lines 583-598): empty the index;
with a file also truncate, reset eof and forget the registry. -/
def clearOp (S : Store) : Store :=
  if S.filePath then { S with map := [], eof := 0, freeBlocks := emptyFB }
  else { S with map := [] }

/-- The index entry built for a live block at a given offset during the
loadDB scan. -/
def parseMapV (imv bv : Bool) (f : ℕ → ℕ) (off : ℕ) : MapV :=
  if imv then
    { v := some (decodeVal bv
        (readBytes f
          (off + (if f off &&& 64 ≠ 0 then 7 else 4) +
            (if f off &&& 64 ≠ 0 then 256 * f (off + 1) + f (off + 2)
             else f (off + 1)))
          (if f off &&& 64 ≠ 0 then
            16777216 * f (off + 3) + 65536 * f (off + 4) + 256 * f (off + 5) +
              f (off + 6)
           else 256 * f (off + 2) + f (off + 3)))),
      o := off, s := extractBlockSize (f off), vo := 0, vs := 0 }
  else
    { v := none, o := off, s := extractBlockSize (f off),
      vo := (if f off &&& 64 ≠ 0 then 7 else 4) +
        (if f off &&& 64 ≠ 0 then 256 * f (off + 1) + f (off + 2) else f (off + 1)),
      vs := if f off &&& 64 ≠ 0 then
        16777216 * f (off + 3) + 65536 * f (off + 4) + 256 * f (off + 5) + f (off + 6)
       else 256 * f (off + 2) + f (off + 3) }

/-- The loadDB scan (lines 347-451), fuel-driven: each block advances the
offset by at least 16 bytes, so eof as fuel always suffices.  A FREE block
is pushed on the registry under its decoded size; a live block is decoded
(large or small length prefixes, key bytes, and the value bytes when
inMemoryValues) and inserted in the index. -/
def parseLoopF (imv bv : Bool) (f : ℕ → ℕ) (eof : ℕ) :
    ℕ → ℕ → List (List ℕ × MapV) → (ℕ → List ℕ) →
      List (List ℕ × MapV) × (ℕ → List ℕ)
  | 0, _, m, fb => (m, fb)
  | fuel + 1, off, m, fb =>
    if off < eof then
      if f off &&& 128 ≠ 0 then
        parseLoopF imv bv f eof fuel (off + extractBlockSize (f off)) m
          (fbPush fb (extractBlockSize (f off)) off)
      else
        parseLoopF imv bv f eof fuel (off + extractBlockSize (f off))
          (mapSet m
            (readBytes f (off + (if f off &&& 64 ≠ 0 then 7 else 4))
              (if f off &&& 64 ≠ 0 then 256 * f (off + 1) + f (off + 2)
               else f (off + 1)))
            (parseMapV imv bv f off))
          fb
    else (m, fb)

/-- loadDB on a fresh engine with the same configuration, pointed at the
same (closed) database file: scan from offset 0 with an empty index and
registry. -/
def loadFresh (S : Store) : Store :=
  { filePath := true, bufferValues := S.bufferValues,
    inMemoryValues := S.inMemoryValues,
    map := (parseLoopF S.inMemoryValues S.bufferValues S.file S.eof S.eof 0 [] emptyFB).1,
    file := S.file, eof := S.eof,
    freeBlocks :=
      (parseLoopF S.inMemoryValues S.bufferValues S.file S.eof S.eof 0 [] emptyFB).2 }

/- Association-list facts for the index. -/

theorem mapGet_mapSet_self (m : List (List ℕ × MapV)) (k : List ℕ) (mv : MapV) :
    mapGet (mapSet m k mv) k = some mv := by
  induction m with
  | nil => simp [mapGet, mapSet]
  | cons p t ih =>
    obtain ⟨k', mv'⟩ := p
    by_cases hk : k' = k
    · simp [mapSet, hk, mapGet]
    · simp [mapSet, hk, mapGet, ih]

theorem mapGet_mapSet_ne (m : List (List ℕ × MapV)) (k k' : List ℕ) (mv : MapV)
    (h : k ≠ k') : mapGet (mapSet m k mv) k' = mapGet m k' := by
  induction m with
  | nil =>
    simp only [mapSet, mapGet]
    rw [if_neg h]
  | cons p t ih =>
    obtain ⟨k₀, mv₀⟩ := p
    by_cases hk : k₀ = k
    · subst hk
      simp only [mapSet, if_pos rfl, mapGet]
      rw [if_neg h, if_neg h]
    · simp only [mapSet, hk, if_false, mapGet, ih]

theorem mapGet_mapDelete_ne (m : List (List ℕ × MapV)) (k k' : List ℕ)
    (h : k ≠ k') : mapGet (mapDelete m k) k' = mapGet m k' := by
  induction m with
  | nil => simp [mapDelete]
  | cons p t ih =>
    obtain ⟨k₀, mv₀⟩ := p
    by_cases hk : k₀ = k
    · subst hk
      simp [mapDelete, mapGet, h]
    · simp only [mapDelete, hk, if_false, mapGet, ih]

theorem mapGet_eq_none_iff (m : List (List ℕ × MapV)) (k : List ℕ) :
    mapGet m k = none ↔ k ∉ m.map Prod.fst := by
  induction m with
  | nil => simp [mapGet]
  | cons p t ih =>
    obtain ⟨k₀, mv₀⟩ := p
    simp only [List.map_cons, List.mem_cons]
    by_cases hk : k₀ = k
    · subst hk
      simp [mapGet]
    · simp only [mapGet, if_neg hk, ih]
      constructor
      · intro hh
        rintro (rfl | hmem)
        · exact hk rfl
        · exact hh hmem
      · intro hh hmem
        exact hh (Or.inr hmem)

theorem mapGet_mapDelete_self (m : List (List ℕ × MapV)) (k : List ℕ)
    (hnd : (m.map Prod.fst).Nodup) : mapGet (mapDelete m k) k = none := by
  induction m with
  | nil => simp [mapDelete, mapGet]
  | cons p t ih =>
    obtain ⟨k₀, mv₀⟩ := p
    simp only [List.map_cons, List.nodup_cons] at hnd
    by_cases hk : k₀ = k
    · subst hk
      simp only [mapDelete, if_pos rfl]
      rw [mapGet_eq_none_iff]
      exact hnd.1
    · simp [mapDelete, hk, mapGet, ih hnd.2]

theorem mem_keys_mapSet (m : List (List ℕ × MapV)) (k x : List ℕ) (mv : MapV) :
    x ∈ (mapSet m k mv).map Prod.fst ↔ x = k ∨ x ∈ m.map Prod.fst := by
  induction m with
  | nil => simp [mapSet]
  | cons p t ih =>
    obtain ⟨k₀, mv₀⟩ := p
    by_cases hk : k₀ = k
    · subst hk
      simp only [mapSet, if_pos rfl, if_true, List.map_cons, List.mem_cons]
      tauto
    · simp only [mapSet, hk, if_false, List.map_cons, List.mem_cons, ih]
      tauto

theorem nodup_keys_mapSet (m : List (List ℕ × MapV)) (k : List ℕ) (mv : MapV)
    (h : (m.map Prod.fst).Nodup) : ((mapSet m k mv).map Prod.fst).Nodup := by
  induction m with
  | nil => simp [mapSet]
  | cons p t ih =>
    obtain ⟨k₀, mv₀⟩ := p
    simp only [List.map_cons, List.nodup_cons] at h
    by_cases hk : k₀ = k
    · subst hk
      simp only [mapSet, if_pos rfl, if_true, List.map_cons, List.nodup_cons]
      exact h
    · simp only [mapSet, hk, if_false, List.map_cons, List.nodup_cons]
      refine ⟨?_, ih h.2⟩
      rw [mem_keys_mapSet]
      push_neg
      exact ⟨hk, h.1⟩

theorem keys_mapDelete_sublist (m : List (List ℕ × MapV)) (k : List ℕ) :
    ((mapDelete m k).map Prod.fst).Sublist (m.map Prod.fst) := by
  induction m with
  | nil => simp [mapDelete]
  | cons p t ih =>
    obtain ⟨k₀, mv₀⟩ := p
    by_cases hk : k₀ = k
    · simp only [mapDelete, hk, if_pos rfl, List.map_cons]
      exact List.sublist_cons_self _ _
    · simp only [mapDelete, hk, if_false, List.map_cons]
      exact ih.cons₂ k₀

theorem nodup_keys_mapDelete (m : List (List ℕ × MapV)) (k : List ℕ)
    (h : (m.map Prod.fst).Nodup) : ((mapDelete m k).map Prod.fst).Nodup :=
  (keys_mapDelete_sublist m k).nodup h

/- Positioned read/write facts. -/

theorem writeAt_inside (f : ℕ → ℕ) (pos : ℕ) (data : List ℕ) (i : ℕ)
    (h1 : pos ≤ i) (h2 : i < pos + data.length) :
    writeAt f pos data i = data.getD (i - pos) 0 := by
  simp [writeAt, h1, h2]

theorem writeAt_outside (f : ℕ → ℕ) (pos : ℕ) (data : List ℕ) (i : ℕ)
    (h : i < pos ∨ pos + data.length ≤ i) :
    writeAt f pos data i = f i := by
  unfold writeAt
  rw [if_neg (by omega)]

theorem readBytes_length (f : ℕ → ℕ) (off len : ℕ) :
    (readBytes f off len).length = len := by
  simp [readBytes]

theorem readBytes_getD (f : ℕ → ℕ) (off len i : ℕ) (h : i < len) :
    (readBytes f off len).getD i 0 = f (off + i) := by
  rw [List.getD_eq_getElem]
  · simp [readBytes]
  · simp [readBytes, h]

theorem readBytes_eq_of_getD (f : ℕ → ℕ) (off len : ℕ) (l : List ℕ)
    (hl : l.length = len) (h : ∀ i < len, f (off + i) = l.getD i 0) :
    readBytes f off len = l := by
  apply List.ext_getElem
  · simp [readBytes, hl]
  · intro i h1 h2
    have hi : i < len := by simpa [readBytes] using h1
    have := h i hi
    rw [List.getD_eq_getElem l 0 h2] at this
    simp only [readBytes, List.getElem_map, List.getElem_range]
    exact this

/- Reading a value back from a freshly written block. -/

theorem record_getD_value (F : ℕ) (lps k v pad : List ℕ) (i : ℕ) (hi : i < v.length) :
    (F :: (lps ++ k ++ v ++ pad)).getD (lps.length + k.length + i + 1) 0 =
      v.getD i 0 := by
  rw [List.getD_cons_succ]
  have h1 : lps.length + k.length + i = (lps ++ k).length + i := by simp
  rw [h1]
  have h2 : (lps ++ k).length + i < (lps ++ k ++ v).length := by
    simp
    omega
  rw [getD_append_lt (lps ++ k ++ v) pad _ h2]
  exact getD_append_add (lps ++ k) v i

theorem decode_normalize (bv : Bool) (v : Value) :
    decodeVal bv (normalize bv v).bytes = normalize bv v := by
  cases v <;> cases bv <;> simp [normalize, decodeVal, Value.bytes]

theorem normalize_bytes (bv : Bool) (v : Value) :
    (normalize bv v).bytes = v.bytes := by
  cases v <;> cases bv <;> simp [normalize, Value.bytes]

/-- The value bytes of a live block written at offset o are read back intact
from the value sub-offset. -/
theorem readBack (f : ℕ → ℕ) (o : ℕ) (k vb : List ℕ) (buf : List ℕ)
    (hbuf : buf = blockBytes (BlockInfo.live k vb buf.length))
    (hsz : entrySizeOf k vb ≤ buf.length) :
    readBytes (writeAt f o buf)
      (o + ((if isLargeKV k vb then 7 else 4) + k.length)) vb.length = vb := by
  apply readBytes_eq_of_getD _ _ _ _ rfl
  intro i hi
  have hlps := lpsBytes_length (isLargeKV k vb) k.length vb.length
  have hesz : entrySizeOf k vb =
      1 + (if isLargeKV k vb then 6 else 3) + k.length + vb.length := rfl
  have hesz2 : entrySizeOf k vb =
      1 + (lpsBytes (isLargeKV k vb) k.length vb.length).length +
        k.length + vb.length := by
    rw [hlps]
    exact hesz
  have hvo43 : (if isLargeKV k vb then 7 else 4) =
      (lpsBytes (isLargeKV k vb) k.length vb.length).length + 1 := by
    rw [hlps]
    cases isLargeKV k vb <;> simp
  have hpos : o + ((if isLargeKV k vb then 7 else 4) + k.length) + i =
      o + ((lpsBytes (isLargeKV k vb) k.length vb.length).length +
        k.length + i + 1) := by
    rw [hvo43]
    omega
  rw [hpos]
  rw [writeAt_inside f o buf _ (by omega) (by omega)]
  rw [Nat.add_sub_cancel_left]
  conv_lhs => rw [hbuf]
  have hshape : blockBytes (BlockInfo.live k vb buf.length) =
      liveFlags buf.length (isLargeKV k vb) ::
        (lpsBytes (isLargeKV k vb) k.length vb.length ++ k ++ vb ++
          List.replicate (buf.length - entrySizeOf k vb) 0) := rfl
  rw [hshape]
  exact record_getD_value _ _ _ _ _ i hi

/-- The core of claims about set followed by has/get on a file-backed
store: the key is present and get returns the normalized value. -/
theorem set_get_aux (S : Store) (k : List ℕ) (v : Value) (S₂ : Store)
    (hf : S.filePath = true) (h : setOp S k v = some S₂) :
    S₂.filePath = true ∧ S₂.bufferValues = S.bufferValues ∧
      S₂.inMemoryValues = S.inMemoryValues ∧ hasOp S₂ k = true ∧
      getOp S₂ k = some (normalize S.bufferValues v) := by
  unfold setOp at h
  cases hg : mapGet S.map k with
  | none =>
    rw [hg, Option.elim_none] at h
    unfold insertOp at h
    rw [if_neg (by simp [hf])] at h
    cases hb : entryBuffer k (normalize S.bufferValues v).bytes 0 with
    | none =>
      rw [hb] at h
      exact absurd h (by simp)
    | some bvv =>
      obtain ⟨buf, vo, vs⟩ := bvv
      obtain ⟨hvo, hvs, _, _, hszle, hcanon, _⟩ :=
        entryBufferRaw_spec (fun _ => 0) k (normalize S.bufferValues v).bytes 0
          buf vo vs hb
      rw [hb, Option.map_some', Option.some.injEq] at h
      subst h
      refine ⟨hf, rfl, rfl, ?_, ?_⟩
      · simp [hasOp, mapGet_mapSet_self]
      · unfold getOp
        rw [mapGet_mapSet_self, Option.elim_some]
        show (if S.inMemoryValues then _ else _) = _
        cases himv : S.inMemoryValues with
        | true => simp [newMapV]
        | false =>
          rw [if_neg (by simp), if_pos (by exact hf)]
          simp only [newMapV, Bool.false_eq_true, if_false]
          rw [hvo, hvs]
          rw [readBack S.file _ k (normalize S.bufferValues v).bytes buf hcanon hszle]
          rw [decode_normalize]
  | some mv =>
    rw [hg, Option.elim_some] at h
    unfold updateOp at h
    rw [if_neg (by simp [hf])] at h
    cases hb : entryBuffer k (normalize S.bufferValues v).bytes mv.s with
    | none =>
      rw [hb] at h
      exact absurd h (by simp)
    | some bvv =>
      obtain ⟨buf, vo, vs⟩ := bvv
      obtain ⟨hvo, hvs, _, _, hszle, hcanon, _⟩ :=
        entryBufferRaw_spec (fun _ => 0) k (normalize S.bufferValues v).bytes mv.s
          buf vo vs hb
      rw [hb, Option.some_bind] at h
      by_cases hrel : mv.s < buf.length
      · rw [if_pos hrel] at h
        cases hcf : blockSizeToFlags mv.s 128 with
        | none =>
          rw [hcf] at h
          exact absurd h (by simp)
        | some cf =>
          rw [hcf, Option.map_some', Option.some.injEq] at h
          subst h
          refine ⟨hf, rfl, rfl, ?_, ?_⟩
          · simp [hasOp, mapGet_mapSet_self]
          · unfold getOp
            rw [mapGet_mapSet_self, Option.elim_some]
            show (if S.inMemoryValues then _ else _) = _
            cases himv : S.inMemoryValues with
            | true => simp [updMapV]
            | false =>
              rw [if_neg (by simp), if_pos (by exact hf)]
              simp only [updMapV, Bool.false_eq_true, if_false]
              rw [hvo, hvs]
              rw [readBack _ _ k (normalize S.bufferValues v).bytes buf hcanon hszle]
              rw [decode_normalize]
      · rw [if_neg hrel] at h
        rw [Option.some.injEq] at h
        subst h
        refine ⟨hf, rfl, rfl, ?_, ?_⟩
        · simp [hasOp, mapGet_mapSet_self]
        · unfold getOp
          rw [mapGet_mapSet_self, Option.elim_some]
          show (if S.inMemoryValues then _ else _) = _
          cases himv : S.inMemoryValues with
          | true => simp [updMapV]
          | false =>
            rw [if_neg (by simp), if_pos (by exact hf)]
            simp only [updMapV, Bool.false_eq_true, if_false]
            rw [hvo, hvs]
            rw [readBack _ _ k (normalize S.bufferValues v).bytes buf hcanon hszle]
            rw [decode_normalize]

/-- States of a file-backed engine reachable by completed set, delete and
clear operations. -/
inductive Reach : Store → Prop where
  | init (bv imv : Bool) : Reach (freshStore bv imv)
  | set {S S₂ : Store} {k : List ℕ} {v : Value} :
      Reach S → setOp S k v = some S₂ → Reach S₂
  | del {S S₂ : Store} {k : List ℕ} :
      Reach S → deleteOp S k = some S₂ → Reach S₂
  | clear {S : Store} : Reach S → Reach (clearOp S)


/- Concrete stores used by the witnesses. -/

def wStore : Store := freshStore false true

def wStore2 : Store := (setOp wStore [97] (Value.str [104, 105])).getD wStore

def wStore3 : Store := (deleteOp wStore2 [97]).getD wStore2

def wMv : MapV := (mapGet wStore2.map [97]).getD ⟨none, 0, 0, 0, 0⟩

def wNull : Store :=
  { filePath := false, bufferValues := false, inMemoryValues := true,
    map := [], file := fun _ => 0, eof := 0, freeBlocks := emptyFB }

/-- C2: after set(k, v) completes on a file-backed store, in both
inMemoryValues configurations, has(k) is true and get(k) returns the value
normalized per the bufferValues setting (bytes decoded to a string when
bufferValues is false, a string encoded to bytes when true). -/
theorem c2_set_round_trip (S : Store) (k : List ℕ) (v : Value) (S₂ : Store)
    (hf : S.filePath = true) (h : setOp S k v = some S₂) :
    hasOp S₂ k = true ∧ getOp S₂ k = some (normalize S.bufferValues v) := by
  have h2 := set_get_aux S k v S₂ hf h
  exact ⟨h2.2.2.2.1, h2.2.2.2.2⟩

theorem c2_set_round_trip_witness :
    hasOp wStore2 [97] = true ∧
      getOp wStore2 [97] = some (normalize false (Value.str [104, 105])) :=
  c2_set_round_trip wStore [97] (Value.str [104, 105]) wStore2 rfl rfl

/-- C3 counterexample: at n = 2^36 (past the top rung 3 * 2^34 of the
ladder) blockSize returns 2^36, which is not a ladder value, and the flags
encoding refuses, so the claim quantified over every n at least 1 fails. -/
theorem c3_counterexample :
    ¬ IsLadder (blockSize (2 ^ 36)) ∧ blockSizeToFlags (2 ^ 36) 0 = none := by
  decide

/-- C3 (amended to the representable range): for 1 ≤ n ≤ 3 * 2^34 (the
largest ladder value), blockSize n is the smallest ladder value that is at
least n, in particular 16 for every n ≤ 16, and the flags encoding of n
round-trips through extractBlockSize to blockSize n. -/
theorem c3_block_sizing (n : ℕ) (_hpos : 1 ≤ n) (h2 : n ≤ 3 * 2 ^ 34) :
    IsLadder (blockSize n) ∧ n ≤ blockSize n ∧
    (∀ m, IsLadder m → n ≤ m → blockSize n ≤ m) ∧
    (n ≤ 16 → blockSize n = 16) ∧
    (∃ f, blockSizeToFlags n 0 = some f ∧ extractBlockSize f = blockSize n) := by
  have h35 := bsP_le_35 n h2
  refine ⟨blockSize_isLadder n h35, le_blockSize n, blockSize_min n,
    blockSize_16_of_le_16 n, sizeBitsOf n, ?_, extract_sizeBits n h35⟩
  unfold blockSizeToFlags
  rw [if_neg (by omega)]
  have h0 : (0:ℕ) &&& 192 = 0 := by decide
  rw [h0, Nat.zero_or]

theorem c3_block_sizing_witness :
    IsLadder (blockSize 100) ∧ 100 ≤ blockSize 100 ∧ blockSize 100 ≤ 128 ∧
      (100 ≤ 16 → blockSize 100 = 16) ∧
      (∃ f, blockSizeToFlags 100 0 = some f ∧
        extractBlockSize f = blockSize 100) := by
  have h := c3_block_sizing 100 (by norm_num) (by norm_num)
  exact ⟨h.1, h.2.1, h.2.2.1 128 (by decide) (by norm_num), h.2.2.2.1,
    h.2.2.2.2⟩

/-- C6: delete of a present key (ladder-sized block, as every block the
engine creates is) removes its index entry, overwrites the block at offset
o with exactly s bytes: a flags byte with FREE set that encodes size s,
then zeros; and pushes o on the registry stack for size s.  The rest of the
file, the other stacks and eof are untouched. -/
theorem c6_delete_frees (S S₂ : Store) (k : List ℕ) (mv : MapV)
    (hf : S.filePath = true) (hnd : (S.map.map Prod.fst).Nodup)
    (hm : mapGet S.map k = some mv) (hlad : IsLadder mv.s)
    (h : deleteOp S k = some S₂) :
    mapGet S₂.map k = none ∧
    (∀ k', k ≠ k' → mapGet S₂.map k' = mapGet S.map k') ∧
    S₂.file mv.o = freeFlags mv.s ∧ freeFlags mv.s &&& 128 ≠ 0 ∧
    extractBlockSize (freeFlags mv.s) = mv.s ∧
    (∀ i, 1 ≤ i → i < mv.s → S₂.file (mv.o + i) = 0) ∧
    (∀ i, i < mv.o ∨ mv.o + mv.s ≤ i → S₂.file i = S.file i) ∧
    S₂.freeBlocks mv.s = mv.o :: S.freeBlocks mv.s ∧
    (∀ sz, sz ≠ mv.s → S₂.freeBlocks sz = S.freeBlocks sz) ∧
    S₂.eof = S.eof := by
  have h35 := (isLadder_bsP_le mv.s hlad).1
  have h16 := ladder_16_le mv.s hlad
  have hff := freeFlags_facts mv.s hlad
  have hcf : blockSizeToFlags mv.s 128 = some (freeFlags mv.s) := by
    unfold blockSizeToFlags freeFlags
    rw [if_neg (by omega)]
    have h128 : (128:ℕ) &&& 192 = 128 := by decide
    rw [h128]
  unfold deleteOp at h
  rw [hm, Option.elim_some, if_neg (by simp [hf]), hcf, Option.map_some',
    Option.some.injEq] at h
  subst h
  refine ⟨mapGet_mapDelete_self _ _ hnd, ?_, ?_, hff.1, hff.2, ?_, ?_, ?_, ?_, rfl⟩
  · intro k' hk
    exact mapGet_mapDelete_ne S.map k k' hk
  · show writeAt S.file mv.o (freeFlags mv.s :: List.replicate (mv.s - 1) 0) mv.o =
      freeFlags mv.s
    rw [writeAt_inside _ _ _ _ le_rfl
      (by simp only [List.length_cons, List.length_replicate]; omega)]
    simp
  · intro i h1 h2
    show writeAt S.file mv.o (freeFlags mv.s :: List.replicate (mv.s - 1) 0)
      (mv.o + i) = 0
    rw [writeAt_inside _ _ _ _ (by omega)
      (by simp only [List.length_cons, List.length_replicate]; omega)]
    rw [Nat.add_sub_cancel_left]
    obtain ⟨j, rfl⟩ : ∃ j, i = j + 1 := ⟨i - 1, by omega⟩
    rw [List.getD_cons_succ]
    exact getD_replicate_zero _ _
  · intro i hi
    show writeAt S.file mv.o (freeFlags mv.s :: List.replicate (mv.s - 1) 0) i =
      S.file i
    apply writeAt_outside
    simp only [List.length_cons, List.length_replicate]
    omega
  · show fbPush S.freeBlocks mv.s mv.o mv.s = mv.o :: S.freeBlocks mv.s
    unfold fbPush
    rw [if_pos rfl]
  · intro sz hsz
    show fbPush S.freeBlocks mv.s mv.o sz = S.freeBlocks sz
    unfold fbPush
    rw [if_neg hsz]

theorem c6_delete_frees_witness :
    mapGet wStore3.map [97] = none ∧ wStore3.freeBlocks 16 = [0] ∧
      wStore3.file 0 = freeFlags 16 := by
  have h := c6_delete_frees wStore2 wStore3 [97] wMv rfl (by decide) rfl
    (by decide) rfl
  exact ⟨h.1, h.2.2.2.2.2.2.2.1, h.2.2.1⟩

/-- C7: the built block lays out the flags byte at offset 0, the key and
value length prefixes (1+2 bytes small form, 2+4 bytes big-endian large
form, large exactly when the key exceeds 255 bytes or the value 65535
bytes), the key bytes, the value bytes, then zeros up to the block size;
the result is independent of the allocUnsafe contents, so no byte past the
record retains prior memory. -/
theorem c7_record_layout (junk : ℕ → ℕ) (k v : List ℕ) (es : ℕ)
    (buf : List ℕ) (vo vs : ℕ)
    (h : entryBufferRaw junk k v es = some (buf, vo, vs)) :
    buf = liveFlags buf.length (isLargeKV k v) ::
        (lpsBytes (isLargeKV k v) k.length v.length ++ k ++ v ++
          List.replicate (buf.length - entrySizeOf k v) 0) ∧
    (isLargeKV k v = true ↔ 255 < k.length ∨ 65535 < v.length) ∧
    vo = (if isLargeKV k v then 7 else 4) + k.length ∧ vs = v.length ∧
    entryBufferRaw junk k v es = entryBufferRaw (fun _ => 0) k v es ∧
    ∀ i, entrySizeOf k v ≤ i → buf.getD i 0 = 0 := by
  obtain ⟨hvo, hvs, _, _, hszle, hcanon, _⟩ :=
    entryBufferRaw_spec junk k v es buf vo vs h
  refine ⟨hcanon, ?_, hvo, hvs, entryBufferRaw_junk_irrel _ _ _ _ _, ?_⟩
  · unfold isLargeKV
    simp
  · intro i hi
    have hes1 : 1 ≤ entrySizeOf k v := by
      unfold entrySizeOf
      cases isLargeKV k v <;> simp only [Bool.false_eq_true, if_false, if_true] <;> omega
    have hlps := lpsBytes_length (isLargeKV k v) k.length v.length
    have hlen3 : (lpsBytes (isLargeKV k v) k.length v.length ++ k ++ v).length =
        entrySizeOf k v - 1 := by
      have he : entrySizeOf k v =
          1 + (if isLargeKV k v then 6 else 3) + k.length + v.length := rfl
      simp only [List.length_append, hlps]
      omega
    rw [hcanon]
    obtain ⟨j, rfl⟩ : ∃ j, i = j + 1 := ⟨i - 1, by omega⟩
    show (liveFlags buf.length (isLargeKV k v) ::
        (lpsBytes (isLargeKV k v) k.length v.length ++ k ++ v ++
          List.replicate (buf.length - entrySizeOf k v) 0)).getD (j + 1) 0 = 0
    rw [List.getD_cons_succ]
    rw [getD_append_ge _ _ _ (by omega)]
    exact getD_replicate_zero _ _

def wEntry : List ℕ × ℕ × ℕ :=
  (entryBufferRaw (fun i => i + 37) [97] [98, 99] 0).getD ([], 0, 0)

theorem c7_record_layout_witness :
    wEntry.1 = liveFlags wEntry.1.length (isLargeKV [97] [98, 99]) ::
        (lpsBytes (isLargeKV [97] [98, 99]) 1 2 ++ [97] ++ [98, 99] ++
          List.replicate (wEntry.1.length - entrySizeOf [97] [98, 99]) 0) ∧
      wEntry.2.1 = 5 ∧ wEntry.2.2 = 2 ∧
      ∀ i, entrySizeOf [97] [98, 99] ≤ i → wEntry.1.getD i 0 = 0 := by
  have h : entryBufferRaw (fun i => i + 37) [97] [98, 99] 0 =
      some (wEntry.1, wEntry.2.1, wEntry.2.2) := rfl
  have hh := c7_record_layout (fun i => i + 37) [97] [98, 99] 0
    wEntry.1 wEntry.2.1 wEntry.2.2 h
  exact ⟨hh.1, hh.2.2.1, hh.2.2.2.1, hh.2.2.2.2.2⟩

/-- C9: delete is idempotent: after a delete(k) completes, a second
delete(k) completes without error and leaves the store exactly unchanged. -/
theorem c9_delete_idempotent (S S₂ : Store) (k : List ℕ)
    (hnd : (S.map.map Prod.fst).Nodup) (h : deleteOp S k = some S₂) :
    deleteOp S₂ k = some S₂ := by
  unfold deleteOp at h ⊢
  cases hg : mapGet S.map k with
  | none =>
    rw [hg, Option.elim_none, Option.some.injEq] at h
    subst h
    rw [hg, Option.elim_none]
  | some mv =>
    rw [hg, Option.elim_some] at h
    by_cases hfp : S.filePath = false
    · rw [if_pos hfp, Option.some.injEq] at h
      subst h
      have h2 : mapGet (mapDelete S.map k) k = none :=
        mapGet_mapDelete_self _ _ hnd
      show (mapGet (mapDelete S.map k) k).elim _ _ = _
      rw [h2, Option.elim_none]
    · rw [if_neg hfp] at h
      cases hcf : blockSizeToFlags mv.s 128 with
      | none =>
        rw [hcf] at h
        exact absurd h (by simp)
      | some cf =>
        rw [hcf, Option.map_some', Option.some.injEq] at h
        subst h
        have h2 : mapGet (mapDelete S.map k) k = none :=
          mapGet_mapDelete_self _ _ hnd
        show (mapGet (mapDelete S.map k) k).elim _ _ = _
        rw [h2, Option.elim_none]

theorem c9_delete_idempotent_witness : deleteOp wStore3 [97] = some wStore3 :=
  c9_delete_idempotent wStore2 wStore3 [97] (by decide) rfl

/-- C10: with a null file path the store behaves as a pure in-memory map:
get without cached values yields null (retrieveDB), set and delete always
succeed, mutate only the index, and leave the file image, eof and the
registry untouched (the DB functions return null before any file work);
clear only empties the index. -/
theorem c10_null_path (S : Store) (k : List ℕ) (v : Value)
    (hf : S.filePath = false) (hnd : (S.map.map Prod.fst).Nodup) :
    (S.inMemoryValues = false → getOp S k = none) ∧
    (∃ S₂, setOp S k v = some S₂ ∧ S₂.file = S.file ∧ S₂.eof = S.eof ∧
      S₂.freeBlocks = S.freeBlocks ∧ hasOp S₂ k = true ∧
      (S.inMemoryValues = true →
        getOp S₂ k = some (normalize S.bufferValues v)) ∧
      (∀ k', k ≠ k' → mapGet S₂.map k' = mapGet S.map k')) ∧
    (∃ S₃, deleteOp S k = some S₃ ∧ S₃.file = S.file ∧ S₃.eof = S.eof ∧
      S₃.freeBlocks = S.freeBlocks ∧ mapGet S₃.map k = none ∧
      (∀ k', k ≠ k' → mapGet S₃.map k' = mapGet S.map k')) ∧
    (clearOp S).map = [] ∧ (clearOp S).file = S.file ∧
    (clearOp S).eof = S.eof ∧ (clearOp S).freeBlocks = S.freeBlocks := by
  refine ⟨?_, ?_, ?_, ?_⟩
  · intro himv
    unfold getOp
    cases hg : mapGet S.map k with
    | none => rw [Option.elim_none]
    | some mv =>
      rw [Option.elim_some, if_neg (by simp [himv]), if_neg (by simp [hf])]
  · unfold setOp
    cases hg : mapGet S.map k with
    | none =>
      rw [Option.elim_none]
      unfold insertOp
      rw [if_pos hf]
      refine ⟨_, rfl, rfl, rfl, rfl, ?_, ?_, ?_⟩
      · simp [hasOp, mapGet_mapSet_self]
      · intro himv
        unfold getOp
        show (mapGet (mapSet S.map k _) k).elim _ _ = _
        rw [mapGet_mapSet_self, Option.elim_some, if_pos (by simp [himv])]
        simp [newMapV, himv]
      · intro k' hk
        exact mapGet_mapSet_ne S.map k k' _ hk
    | some mv =>
      rw [Option.elim_some]
      unfold updateOp
      rw [if_pos hf]
      refine ⟨_, rfl, rfl, rfl, rfl, ?_, ?_, ?_⟩
      · simp [hasOp, mapGet_mapSet_self]
      · intro himv
        unfold getOp
        show (mapGet (mapSet S.map k _) k).elim _ _ = _
        rw [mapGet_mapSet_self, Option.elim_some, if_pos (by simp [himv])]
        simp [updMapV, himv]
      · intro k' hk
        exact mapGet_mapSet_ne S.map k k' _ hk
  · unfold deleteOp
    cases hg : mapGet S.map k with
    | none =>
      rw [Option.elim_none]
      exact ⟨S, rfl, rfl, rfl, rfl, hg, fun k' _ => rfl⟩
    | some mv =>
      rw [Option.elim_some, if_pos hf]
      refine ⟨_, rfl, rfl, rfl, rfl, mapGet_mapDelete_self _ _ hnd, ?_⟩
      intro k' hk
      exact mapGet_mapDelete_ne S.map k k' hk
  · unfold clearOp
    rw [hf]
    exact ⟨rfl, rfl, rfl, rfl⟩

theorem c10_null_path_witness :
    (wNull.inMemoryValues = false → getOp wNull [5] = none) ∧
    (∃ S₂, setOp wNull [5] (Value.str [6]) = some S₂ ∧ S₂.file = wNull.file ∧
      S₂.eof = wNull.eof ∧ S₂.freeBlocks = wNull.freeBlocks ∧
      hasOp S₂ [5] = true ∧
      (wNull.inMemoryValues = true →
        getOp S₂ [5] = some (normalize wNull.bufferValues (Value.str [6]))) ∧
      (∀ k', [5] ≠ k' → mapGet S₂.map k' = mapGet wNull.map k')) ∧
    (∃ S₃, deleteOp wNull [5] = some S₃ ∧ S₃.file = wNull.file ∧
      S₃.eof = wNull.eof ∧ S₃.freeBlocks = wNull.freeBlocks ∧
      mapGet S₃.map [5] = none ∧
      (∀ k', [5] ≠ k' → mapGet S₃.map k' = mapGet wNull.map k')) ∧
    (clearOp wNull).map = [] ∧ (clearOp wNull).file = wNull.file ∧
    (clearOp wNull).eof = wNull.eof ∧
    (clearOp wNull).freeBlocks = wNull.freeBlocks :=
  c10_null_path wNull [5] (Value.str [6]) rfl (by decide)

/-- C8 counterexample: set with the empty key succeeds and stores the key
(the store state changes), so the claim that it fails with InvalidKey and
leaves the state unchanged is false on the code, which never validates
keys. -/
theorem c8_counterexample :
    (setOp (freshStore true true) [] (Value.str [120])).isSome = true ∧
      hasOp ((setOp (freshStore true true) [] (Value.str [120])).getD
        (freshStore true true)) [] = true := by
  exact ⟨rfl, rfl⟩

/-- C8 (amended): the engine performs no key validation; set with the empty
key (value of permitted size) succeeds, and the empty key is stored and
retrievable like any other.  (Non-UTF-8 keys are not expressible: JS keys
are strings and arrive as well-formed UTF-8 byte sequences.) -/
theorem c8_empty_key_accepted (S : Store) (v : Value)
    (hf : S.filePath = true) (hnew : mapGet S.map [] = none)
    (hv : v.bytes.length ≤ 65535) :
    ∃ S₂, setOp S [] v = some S₂ ∧ hasOp S₂ [] = true ∧
      getOp S₂ [] = some (normalize S.bufferValues v) := by
  have hvb : (normalize S.bufferValues v).bytes.length ≤ 65535 := by
    rw [normalize_bytes]
    exact hv
  have hL : isLargeKV [] (normalize S.bufferValues v).bytes = false := by
    unfold isLargeKV
    simp
    omega
  have hesz : entrySizeOf [] (normalize S.bufferValues v).bytes =
      4 + (normalize S.bufferValues v).bytes.length := by
    unfold entrySizeOf
    rw [hL]
    simp
  have hsome : ∃ r, entryBuffer [] (normalize S.bufferValues v).bytes 0 = some r := by
    unfold entryBuffer entryBufferRaw
    rw [if_neg (by simp only [List.length_nil]; omega)]
    rw [if_neg (by omega)]
    have h35 : bsP ((6 * entrySizeOf [] (normalize S.bufferValues v).bytes + 4) / 5)
        ≤ 35 := by
      apply bsP_le_35_of_le
      have hp : (2:ℕ) ^ 35 = 34359738368 := by norm_num
      omega
    unfold blockSizeToFlags
    rw [if_neg (by omega)]
    exact ⟨_, Option.map_some' _ _⟩
  obtain ⟨r, hr⟩ := hsome
  have hset : setOp S [] v = insertOp S [] (normalize S.bufferValues v) := by
    unfold setOp
    rw [hnew, Option.elim_none]
  have hins : ∃ S₂, insertOp S [] (normalize S.bufferValues v) = some S₂ := by
    unfold insertOp
    rw [if_neg (by simp [hf]), hr, Option.map_some']
    exact ⟨_, rfl⟩
  obtain ⟨S₂, hS₂⟩ := hins
  have hfull := set_get_aux S [] v S₂ hf (hset.trans hS₂)
  exact ⟨S₂, hset.trans hS₂, hfull.2.2.2.1, hfull.2.2.2.2⟩

theorem c8_empty_key_accepted_witness :
    ∃ S₂, setOp (freshStore true true) [] (Value.str [120]) = some S₂ ∧
      hasOp S₂ [] = true ∧
      getOp S₂ [] = some (normalize true (Value.str [120])) :=
  c8_empty_key_accepted (freshStore true true) (Value.str [120]) rfl rfl
    (by decide)



/- Placement facts (insertEntryBuffer). -/

theorem fbSet_self (fb : ℕ → List ℕ) (sz : ℕ) (l : List ℕ) :
    fbSet fb sz l sz = l := by
  unfold fbSet
  rw [if_pos rfl]

theorem fbSet_ne (fb : ℕ → List ℕ) (sz : ℕ) (l : List ℕ) (s' : ℕ) (h : s' ≠ sz) :
    fbSet fb sz l s' = fb s' := by
  unfold fbSet
  rw [if_neg h]

theorem fbPush_self (fb : ℕ → List ℕ) (sz off : ℕ) :
    fbPush fb sz off sz = off :: fb sz := by
  unfold fbPush
  rw [if_pos rfl]

theorem fbPush_ne (fb : ℕ → List ℕ) (sz off s' : ℕ) (h : s' ≠ sz) :
    fbPush fb sz off s' = fb s' := by
  unfold fbPush
  rw [if_neg h]

theorem place_cons (fb : ℕ → List ℕ) (eof len off : ℕ) (rest : List ℕ)
    (h : fb len = off :: rest) :
    place fb eof len = (off, eof, fbSet fb len rest) := by
  unfold place
  rw [h]

theorem place_nil (fb : ℕ → List ℕ) (eof len : ℕ) (h : fb len = []) :
    place fb eof len = (eof, eof + len, fb) := by
  unfold place
  rw [h]

/-- C5: for every insertion (and every relocating update) needing a block
of exactly the buffer size b: if the registry stack for b is non-empty its
top (the most recently freed offset) is popped and used and eof is
unchanged; otherwise the block is appended at eof, which advances by
exactly b.  Stacks of any other size are never popped (the relocation also
pushes the old block on its own stack, which is the one exception listed). -/
theorem c5_placement (S : Store) (k : List ℕ) (v : Value) (S₂ : Store)
    (buf : List ℕ) (vo vs : ℕ)
    (hf : S.filePath = true) (h : setOp S k v = some S₂) :
    (mapGet S.map k = none →
      entryBuffer k (normalize S.bufferValues v).bytes 0 = some (buf, vo, vs) →
      ((∀ off rest, S.freeBlocks buf.length = off :: rest →
         (∃ mv₂, mapGet S₂.map k = some mv₂ ∧ mv₂.o = off ∧
           mv₂.s = buf.length) ∧
         S₂.eof = S.eof ∧ S₂.freeBlocks buf.length = rest) ∧
       (S.freeBlocks buf.length = [] →
         (∃ mv₂, mapGet S₂.map k = some mv₂ ∧ mv₂.o = S.eof ∧
           mv₂.s = buf.length) ∧
         S₂.eof = S.eof + buf.length ∧
         S₂.freeBlocks buf.length = S.freeBlocks buf.length) ∧
       (∀ sz, sz ≠ buf.length → S₂.freeBlocks sz = S.freeBlocks sz))) ∧
    (∀ mv, mapGet S.map k = some mv →
      entryBuffer k (normalize S.bufferValues v).bytes mv.s = some (buf, vo, vs) →
      mv.s < buf.length →
      ((∀ off rest, S.freeBlocks buf.length = off :: rest →
         (∃ mv₂, mapGet S₂.map k = some mv₂ ∧ mv₂.o = off ∧
           mv₂.s = buf.length) ∧
         S₂.eof = S.eof ∧ S₂.freeBlocks buf.length = rest) ∧
       (S.freeBlocks buf.length = [] →
         (∃ mv₂, mapGet S₂.map k = some mv₂ ∧ mv₂.o = S.eof ∧
           mv₂.s = buf.length) ∧
         S₂.eof = S.eof + buf.length) ∧
       (∀ sz, sz ≠ buf.length → sz ≠ mv.s →
         S₂.freeBlocks sz = S.freeBlocks sz))) := by
  constructor
  · intro hnone hbuf
    unfold setOp at h
    rw [hnone, Option.elim_none] at h
    unfold insertOp at h
    rw [if_neg (by simp [hf]), hbuf, Option.map_some', Option.some.injEq] at h
    subst h
    refine ⟨?_, ?_, ?_⟩
    · intro off rest hfb
      have hpl := place_cons S.freeBlocks S.eof buf.length off rest hfb
      refine ⟨⟨_, mapGet_mapSet_self _ _ _, ?_, rfl⟩, ?_, ?_⟩
      · show (place S.freeBlocks S.eof buf.length).1 = off
        rw [hpl]
      · show (place S.freeBlocks S.eof buf.length).2.1 = S.eof
        rw [hpl]
      · show (place S.freeBlocks S.eof buf.length).2.2 buf.length = rest
        rw [hpl]
        exact fbSet_self _ _ _
    · intro hfb
      have hpl := place_nil S.freeBlocks S.eof buf.length hfb
      refine ⟨⟨_, mapGet_mapSet_self _ _ _, ?_, rfl⟩, ?_, ?_⟩
      · show (place S.freeBlocks S.eof buf.length).1 = S.eof
        rw [hpl]
      · show (place S.freeBlocks S.eof buf.length).2.1 = S.eof + buf.length
        rw [hpl]
      · show (place S.freeBlocks S.eof buf.length).2.2 buf.length =
          S.freeBlocks buf.length
        rw [hpl]
    · intro sz hsz
      show (place S.freeBlocks S.eof buf.length).2.2 sz = S.freeBlocks sz
      cases hfb : S.freeBlocks buf.length with
      | nil => rw [place_nil _ _ _ hfb]
      | cons off rest =>
        rw [place_cons _ _ _ _ _ hfb]
        exact fbSet_ne _ _ _ _ hsz
  · intro mv hsome hbuf hlt
    unfold setOp at h
    rw [hsome, Option.elim_some] at h
    unfold updateOp at h
    rw [if_neg (by simp [hf]), hbuf, Option.some_bind, if_pos hlt] at h
    cases hcf : blockSizeToFlags mv.s 128 with
    | none =>
      rw [hcf] at h
      exact absurd h (by simp)
    | some cf =>
      rw [hcf, Option.map_some', Option.some.injEq] at h
      subst h
      have hne : buf.length ≠ mv.s := by omega
      have hfbA : ∀ sz, sz ≠ mv.s →
          fbPush S.freeBlocks mv.s mv.o sz = S.freeBlocks sz :=
        fun sz hsz => fbPush_ne _ _ _ _ hsz
      refine ⟨?_, ?_, ?_⟩
      · intro off rest hfb
        have hfb2 : fbPush S.freeBlocks mv.s mv.o buf.length = off :: rest := by
          rw [hfbA buf.length hne]
          exact hfb
        have hpl := place_cons (fbPush S.freeBlocks mv.s mv.o) S.eof buf.length
          off rest hfb2
        refine ⟨⟨_, mapGet_mapSet_self _ _ _, ?_, rfl⟩, ?_, ?_⟩
        · show (place (fbPush S.freeBlocks mv.s mv.o) S.eof buf.length).1 = off
          rw [hpl]
        · show (place (fbPush S.freeBlocks mv.s mv.o) S.eof buf.length).2.1 = S.eof
          rw [hpl]
        · show (place (fbPush S.freeBlocks mv.s mv.o) S.eof buf.length).2.2
            buf.length = rest
          rw [hpl]
          exact fbSet_self _ _ _
      · intro hfb
        have hfb2 : fbPush S.freeBlocks mv.s mv.o buf.length = [] := by
          rw [hfbA buf.length hne]
          exact hfb
        have hpl := place_nil (fbPush S.freeBlocks mv.s mv.o) S.eof buf.length hfb2
        refine ⟨⟨_, mapGet_mapSet_self _ _ _, ?_, rfl⟩, ?_⟩
        · show (place (fbPush S.freeBlocks mv.s mv.o) S.eof buf.length).1 = S.eof
          rw [hpl]
        · show (place (fbPush S.freeBlocks mv.s mv.o) S.eof buf.length).2.1 =
            S.eof + buf.length
          rw [hpl]
      · intro sz hsz1 hsz2
        show (place (fbPush S.freeBlocks mv.s mv.o) S.eof buf.length).2.2 sz =
          S.freeBlocks sz
        cases hfb : fbPush S.freeBlocks mv.s mv.o buf.length with
        | nil =>
          rw [place_nil _ _ _ hfb]
          exact hfbA sz hsz2
        | cons off rest =>
          rw [place_cons _ _ _ _ _ hfb]
          exact (fbSet_ne _ _ _ _ hsz1).trans (hfbA sz hsz2)

def wEntryIns : List ℕ × ℕ × ℕ := (entryBuffer [97] [104, 105] 0).getD ([], 0, 0)

theorem c5_placement_witness :
    (∃ mv₂, mapGet wStore2.map [97] = some mv₂ ∧ mv₂.o = wStore.eof ∧
      mv₂.s = wEntryIns.1.length) ∧
      wStore2.eof = wStore.eof + wEntryIns.1.length := by
  have h := c5_placement wStore [97] (Value.str [104, 105]) wStore2
    wEntryIns.1 wEntryIns.2.1 wEntryIns.2.2 rfl rfl
  have h2 := (h.1 rfl rfl).2.1 rfl
  exact ⟨h2.1, h2.2.1⟩



/-- C4: updating an existing key relocates exactly when the new record does
not fit the existing block (the built buffer keeps the existing size iff
the record fits).  A fitting update rewrites in place keeping o and s and
touching nothing else; a non-fitting update frees the old block (FREE
flags byte, zero body), registers its offset under the old size, places the
new block elsewhere, and get returns the new value.  The two disjointness
hypotheses of the relocation part state that the store is well formed: the
free blocks of the target size do not overlap the old block and the old
block lies inside the file. -/
theorem c4_update_policy (S : Store) (k : List ℕ) (v : Value)
    (S₂ : Store) (mv : MapV) (buf : List ℕ) (vo vs : ℕ)
    (hf : S.filePath = true)
    (hm : mapGet S.map k = some mv)
    (hbuf : entryBuffer k (normalize S.bufferValues v).bytes mv.s =
      some (buf, vo, vs))
    (h : setOp S k v = some S₂) :
    (entrySizeOf k (normalize S.bufferValues v).bytes ≤ mv.s ↔
      buf.length = mv.s) ∧
    (entrySizeOf k (normalize S.bufferValues v).bytes ≤ mv.s →
      ∃ mv₂, mapGet S₂.map k = some mv₂ ∧ mv₂.o = mv.o ∧ mv₂.s = mv.s ∧
        S₂.eof = S.eof ∧ S₂.freeBlocks = S.freeBlocks ∧
        (∀ i, i < mv.o ∨ mv.o + mv.s ≤ i → S₂.file i = S.file i) ∧
        getOp S₂ k = some (normalize S.bufferValues v)) ∧
    (mv.s < entrySizeOf k (normalize S.bufferValues v).bytes →
      IsLadder mv.s →
      (∀ x ∈ S.freeBlocks buf.length,
        mv.o + mv.s ≤ x ∨ x + buf.length ≤ mv.o) →
      mv.o + mv.s ≤ S.eof →
      S₂.freeBlocks mv.s = mv.o :: S.freeBlocks mv.s ∧
      (∃ mv₂, mapGet S₂.map k = some mv₂ ∧ mv₂.s = buf.length ∧
        mv₂.o ≠ mv.o) ∧
      S₂.file mv.o = freeFlags mv.s ∧
      (∀ i, 1 ≤ i → i < mv.s → S₂.file (mv.o + i) = 0) ∧
      getOp S₂ k = some (normalize S.bufferValues v)) := by
  obtain ⟨hvo, hvs, _, _, hszle, hcanon, hbranch⟩ :=
    entryBufferRaw_spec (fun _ => 0) k (normalize S.bufferValues v).bytes mv.s
      buf vo vs hbuf
  have hget := set_get_aux S k v S₂ hf h
  have hiff : entrySizeOf k (normalize S.bufferValues v).bytes ≤ mv.s ↔
      buf.length = mv.s := by
    constructor
    · intro hfit
      rcases hbranch with ⟨_, hlen⟩ | ⟨hlt, _, _⟩
      · exact hlen
      · omega
    · intro hlen
      rcases hbranch with ⟨hfit, _⟩ | ⟨hlt, _, _⟩
      · exact hfit
      · omega
  unfold setOp at h
  rw [hm, Option.elim_some] at h
  unfold updateOp at h
  rw [if_neg (by simp [hf]), hbuf, Option.some_bind] at h
  dsimp only at h
  refine ⟨hiff, ?_, ?_⟩
  · intro hfit
    have hlen : buf.length = mv.s := hiff.mp hfit
    rw [if_neg (by omega)] at h
    rw [Option.some.injEq] at h
    subst h
    refine ⟨_, mapGet_mapSet_self _ _ _, ?_, ?_, rfl, rfl, ?_, hget.2.2.2.2⟩
    · show (updMapV S.inMemoryValues mv (normalize S.bufferValues v) vo vs).o = mv.o
      unfold updMapV
      cases S.inMemoryValues <;> simp
    · show buf.length = mv.s
      exact hlen
    · intro i hi
      show writeAt S.file mv.o buf i = S.file i
      apply writeAt_outside
      omega
  · intro hlt hlad hdisj heof
    have hlen : mv.s < buf.length := by
      rcases hbranch with ⟨hfit, _⟩ | ⟨_, _, _⟩
      · omega
      · have := hiff
        omega
    rw [if_pos hlen] at h
    have h35 := (isLadder_bsP_le mv.s hlad).1
    have h16 := ladder_16_le mv.s hlad
    have hcf : blockSizeToFlags mv.s 128 = some (freeFlags mv.s) := by
      unfold blockSizeToFlags freeFlags
      rw [if_neg (by omega)]
      have h128 : (128:ℕ) &&& 192 = 128 := by decide
      rw [h128]
    rw [hcf, Option.map_some', Option.some.injEq] at h
    subst h
    have hne : buf.length ≠ mv.s := by omega
    have hfbA : fbPush S.freeBlocks mv.s mv.o buf.length =
        S.freeBlocks buf.length := fbPush_ne _ _ _ _ hne
    -- the chosen offset never overlaps the freed block
    have hplace : (place (fbPush S.freeBlocks mv.s mv.o) S.eof buf.length).1 ≠ mv.o ∧
        (mv.o + mv.s ≤ (place (fbPush S.freeBlocks mv.s mv.o) S.eof buf.length).1 ∨
         (place (fbPush S.freeBlocks mv.s mv.o) S.eof buf.length).1 + buf.length ≤
           mv.o) := by
      cases hfb : S.freeBlocks buf.length with
      | nil =>
        rw [place_nil _ _ _ (hfbA.trans hfb)]
        constructor
        · show S.eof ≠ mv.o
          omega
        · show mv.o + mv.s ≤ S.eof ∨ S.eof + buf.length ≤ mv.o
          omega
      | cons off rest =>
        rw [place_cons _ _ _ _ _ (hfbA.trans hfb)]
        have hmem : off ∈ S.freeBlocks buf.length := by
          rw [hfb]
          exact List.mem_cons_self _ _
        have hd := hdisj off hmem
        constructor
        · show off ≠ mv.o
          omega
        · show mv.o + mv.s ≤ off ∨ off + buf.length ≤ mv.o
          exact hd
    refine ⟨?_, ⟨_, mapGet_mapSet_self _ _ _, rfl, ?_⟩, ?_, ?_, hget.2.2.2.2⟩
    · show (place (fbPush S.freeBlocks mv.s mv.o) S.eof buf.length).2.2 mv.s =
        mv.o :: S.freeBlocks mv.s
      cases hfb : S.freeBlocks buf.length with
      | nil =>
        rw [place_nil _ _ _ (hfbA.trans hfb)]
        exact fbPush_self _ _ _
      | cons off rest =>
        rw [place_cons _ _ _ _ _ (hfbA.trans hfb)]
        exact (fbSet_ne _ _ _ _ (by omega)).trans (fbPush_self _ _ _)
    · show (place (fbPush S.freeBlocks mv.s mv.o) S.eof buf.length).1 ≠ mv.o
      exact hplace.1
    · show writeAt (writeAt S.file mv.o (freeFlags mv.s :: List.replicate (mv.s - 1) 0))
        (place (fbPush S.freeBlocks mv.s mv.o) S.eof buf.length).1 buf mv.o =
        freeFlags mv.s
      rw [writeAt_outside _ _ _ _ (by omega)]
      rw [writeAt_inside _ _ _ _ le_rfl
        (by simp only [List.length_cons, List.length_replicate]; omega)]
      simp
    · intro i h1 h2
      show writeAt (writeAt S.file mv.o (freeFlags mv.s :: List.replicate (mv.s - 1) 0))
        (place (fbPush S.freeBlocks mv.s mv.o) S.eof buf.length).1 buf (mv.o + i) = 0
      rw [writeAt_outside _ _ _ _ (by omega)]
      rw [writeAt_inside _ _ _ _ (by omega)
        (by simp only [List.length_cons, List.length_replicate]; omega)]
      rw [Nat.add_sub_cancel_left]
      obtain ⟨j, rfl⟩ : ∃ j, i = j + 1 := ⟨i - 1, by omega⟩
      rw [List.getD_cons_succ]
      exact getD_replicate_zero _ _

def wVal4 : Value := Value.str (List.replicate 20 106)

def wBuf4 : List ℕ × ℕ × ℕ :=
  (entryBuffer [97] (List.replicate 20 106) 16).getD ([], 0, 0)

def wStore4 : Store := (setOp wStore2 [97] wVal4).getD wStore2

theorem c4_update_policy_witness :
    wStore4.freeBlocks wMv.s = wMv.o :: wStore2.freeBlocks wMv.s ∧
      (∃ mv₂, mapGet wStore4.map [97] = some mv₂ ∧ mv₂.s = wBuf4.1.length ∧
        mv₂.o ≠ wMv.o) ∧
      wStore4.file wMv.o = freeFlags wMv.s ∧
      getOp wStore4 [97] = some (normalize false wVal4) := by
  have h := c4_update_policy wStore2 [97] wVal4 wStore4 wMv
    wBuf4.1 wBuf4.2.1 wBuf4.2.2 rfl rfl rfl rfl
  have hrel := h.2.2 (by decide) (by decide) ?_ (by decide)
  · exact ⟨hrel.1, hrel.2.1, hrel.2.2.1, hrel.2.2.2.2⟩
  · intro x hx
    have hempty : wStore2.freeBlocks wBuf4.1.length = [] := rfl
    rw [hempty] at hx
    exact absurd hx (List.not_mem_nil x)



/-
The file layout as a list of blocks: the refinement invariant tying a
reachable store to its on-disk image, used to verify the load protocol.
-/

/-- Total physical span of a block sequence. -/
def sizeSum (L : List BlockInfo) : ℕ := (L.map bSize).sum

/-- Every block the engine writes is ladder sized, and a live block holds
its whole record. -/
def ValidBlock : BlockInfo → Prop
  | .free sz => IsLadder sz
  | .live k v sz => IsLadder sz ∧ entrySizeOf k v ≤ sz

/-- The file carries the given bytes starting at off. -/
def fileHas (f : ℕ → ℕ) (off : ℕ) (data : List ℕ) : Prop :=
  ∀ i < data.length, f (off + i) = data.getD i 0

/-- The file is a gapless sequence of valid blocks from off on. -/
def LayoutOk (f : ℕ → ℕ) : ℕ → List BlockInfo → Prop
  | _, [] => True
  | off, b :: rest =>
      ValidBlock b ∧ fileHas f off (blockBytes b) ∧
        LayoutOk f (off + bSize b) rest

/-- The index entry determined by a live block at a given offset. -/
def mkMapV (imv bv : Bool) (k v : List ℕ) (off sz : ℕ) : MapV :=
  if imv then
    { v := some (decodeVal bv v), o := off, s := sz, vo := 0, vs := 0 }
  else
    { v := none, o := off, s := sz,
      vo := (if isLargeKV k v then 7 else 4) + k.length, vs := v.length }

/-- The association list of index entries carried by the live blocks. -/
def liveEntries (imv bv : Bool) : ℕ → List BlockInfo → List (List ℕ × MapV)
  | _, [] => []
  | off, .free sz :: rest => liveEntries imv bv (off + sz) rest
  | off, .live k v sz :: rest =>
      (k, mkMapV imv bv k v off sz) :: liveEntries imv bv (off + sz) rest

def liveKeys : List BlockInfo → List (List ℕ)
  | [] => []
  | .free _ :: rest => liveKeys rest
  | .live k _ _ :: rest => k :: liveKeys rest

/-- Offsets of the free blocks of a given size, in file order. -/
def freeOffsets (sz : ℕ) : ℕ → List BlockInfo → List ℕ
  | _, [] => []
  | off, .free s0 :: rest =>
      (if s0 = sz then [off] else []) ++ freeOffsets sz (off + s0) rest
  | off, .live _ _ s0 :: rest => freeOffsets sz (off + s0) rest

/-- The refinement invariant of a file-backed store: some valid layout
fills the file up to eof, the index is exactly the live entries, live keys
are unique, and the registry holds only free offsets of the right size. -/
def Inv (S : Store) : Prop :=
  S.filePath = true ∧
  (S.map.map Prod.fst).Nodup ∧
  ∃ L : List BlockInfo,
    LayoutOk S.file 0 L ∧ sizeSum L = S.eof ∧
    (∀ k, mapGet S.map k =
      mapGet (liveEntries S.inMemoryValues S.bufferValues 0 L) k) ∧
    (liveKeys L).Nodup ∧
    (∀ sz, (S.freeBlocks sz).Nodup ∧
      ∀ o ∈ S.freeBlocks sz, o ∈ freeOffsets sz 0 L)

theorem sizeSum_nil : sizeSum [] = 0 := rfl

theorem sizeSum_cons (b : BlockInfo) (L : List BlockInfo) :
    sizeSum (b :: L) = bSize b + sizeSum L := by
  simp [sizeSum]

theorem sizeSum_append (L₁ L₂ : List BlockInfo) :
    sizeSum (L₁ ++ L₂) = sizeSum L₁ + sizeSum L₂ := by
  simp [sizeSum]

theorem validBlock_pos (b : BlockInfo) (h : ValidBlock b) : 16 ≤ bSize b := by
  cases b with
  | free sz => exact ladder_16_le sz h
  | live k v sz => exact ladder_16_le sz h.1

theorem blockBytes_length (b : BlockInfo) (h : ValidBlock b) :
    (blockBytes b).length = bSize b := by
  cases b with
  | free sz =>
    have := ladder_16_le sz h
    exact blockBytes_length_free sz (by omega)
  | live k v sz => exact blockBytes_length_live k v sz h.2

theorem layoutOk_cons (f : ℕ → ℕ) (off : ℕ) (b : BlockInfo) (L : List BlockInfo) :
    LayoutOk f off (b :: L) ↔
      ValidBlock b ∧ fileHas f off (blockBytes b) ∧
        LayoutOk f (off + bSize b) L := Iff.rfl

theorem layoutOk_append (f : ℕ → ℕ) (off : ℕ) (L₁ L₂ : List BlockInfo) :
    LayoutOk f off (L₁ ++ L₂) ↔
      LayoutOk f off L₁ ∧ LayoutOk f (off + sizeSum L₁) L₂ := by
  induction L₁ generalizing off with
  | nil => simp [LayoutOk, sizeSum_nil]
  | cons b t ih =>
    rw [List.cons_append, layoutOk_cons, layoutOk_cons, ih (off + bSize b),
      sizeSum_cons]
    constructor
    · rintro ⟨h1, h2, h3, h4⟩
      refine ⟨⟨h1, h2, h3⟩, ?_⟩
      rw [show off + (bSize b + sizeSum t) = off + bSize b + sizeSum t from by omega]
      exact h4
    · rintro ⟨⟨h1, h2, h3⟩, h4⟩
      refine ⟨h1, h2, h3, ?_⟩
      rw [show off + bSize b + sizeSum t = off + (bSize b + sizeSum t) from by omega]
      exact h4

theorem layoutOk_valid (f : ℕ → ℕ) (off : ℕ) (L : List BlockInfo)
    (h : LayoutOk f off L) : ∀ b ∈ L, ValidBlock b := by
  induction L generalizing off with
  | nil => intro b hb; exact absurd hb (List.not_mem_nil b)
  | cons c t ih =>
    intro b hb
    rcases List.mem_cons.mp hb with rfl | hb'
    · exact h.1
    · exact ih (off + bSize c) h.2.2 b hb'

theorem liveEntries_append (imv bv : Bool) (off : ℕ) (L₁ L₂ : List BlockInfo) :
    liveEntries imv bv off (L₁ ++ L₂) =
      liveEntries imv bv off L₁ ++ liveEntries imv bv (off + sizeSum L₁) L₂ := by
  induction L₁ generalizing off with
  | nil => simp [liveEntries, sizeSum_nil]
  | cons b t ih =>
    cases b with
    | free sz =>
      simp only [List.cons_append, liveEntries, sizeSum_cons, bSize, List.append_eq]
      rw [ih (off + sz),
        show off + sz + sizeSum t = off + (sz + sizeSum t) from by omega]
    | live k v sz =>
      simp only [List.cons_append, liveEntries, sizeSum_cons, bSize, List.append_eq]
      rw [ih (off + sz),
        show off + sz + sizeSum t = off + (sz + sizeSum t) from by omega]

theorem liveKeys_append (L₁ L₂ : List BlockInfo) :
    liveKeys (L₁ ++ L₂) = liveKeys L₁ ++ liveKeys L₂ := by
  induction L₁ with
  | nil => simp [liveKeys]
  | cons b t ih =>
    cases b <;> simp [liveKeys, ih]

theorem liveEntries_keys (imv bv : Bool) (off : ℕ) (L : List BlockInfo) :
    (liveEntries imv bv off L).map Prod.fst = liveKeys L := by
  induction L generalizing off with
  | nil => rfl
  | cons b t ih =>
    cases b with
    | free sz => simpa [liveEntries, liveKeys] using ih (off + sz)
    | live k v sz => simp [liveEntries, liveKeys, ih (off + sz)]

theorem freeOffsets_append (sz : ℕ) (off : ℕ) (L₁ L₂ : List BlockInfo) :
    freeOffsets sz off (L₁ ++ L₂) =
      freeOffsets sz off L₁ ++ freeOffsets sz (off + sizeSum L₁) L₂ := by
  induction L₁ generalizing off with
  | nil => simp [freeOffsets, sizeSum_nil]
  | cons b t ih =>
    cases b with
    | free s0 =>
      simp only [List.cons_append, freeOffsets, sizeSum_cons, bSize,
        List.append_assoc, List.append_eq]
      rw [ih (off + s0),
        show off + s0 + sizeSum t = off + (s0 + sizeSum t) from by omega]
    | live k v s0 =>
      simp only [List.cons_append, freeOffsets, sizeSum_cons, bSize, List.append_eq]
      rw [ih (off + s0),
        show off + s0 + sizeSum t = off + (s0 + sizeSum t) from by omega]



/- Frame and update lemmas for layouts. -/

theorem fileHas_frame (f : ℕ → ℕ) (off : ℕ) (data : List ℕ) (wo : ℕ)
    (d : List ℕ) (h : fileHas f off data)
    (hdisj : off + data.length ≤ wo ∨ wo + d.length ≤ off) :
    fileHas (writeAt f wo d) off data := by
  intro i hi
  rw [writeAt_outside _ _ _ _ (by omega)]
  exact h i hi

theorem fileHas_self (f : ℕ → ℕ) (off : ℕ) (d : List ℕ) :
    fileHas (writeAt f off d) off d := by
  intro i hi
  rw [writeAt_inside _ _ _ _ (by omega) (by omega), Nat.add_sub_cancel_left]

theorem layoutOk_frame (f : ℕ → ℕ) (off : ℕ) (L : List BlockInfo) (wo : ℕ)
    (d : List ℕ) (hL : LayoutOk f off L)
    (hdisj : off + sizeSum L ≤ wo ∨ wo + d.length ≤ off) :
    LayoutOk (writeAt f wo d) off L := by
  induction L generalizing off with
  | nil => trivial
  | cons b t ih =>
    obtain ⟨h1, h2, h3⟩ := hL
    rw [sizeSum_cons] at hdisj
    have hlen := blockBytes_length b h1
    refine ⟨h1, fileHas_frame _ _ _ _ _ h2 (by omega), ?_⟩
    exact ih (off + bSize b) h3 (by omega)

theorem layoutOk_snoc (f : ℕ → ℕ) (off : ℕ) (L : List BlockInfo) (b : BlockInfo)
    (hL : LayoutOk f off L) (hb : ValidBlock b) :
    LayoutOk (writeAt f (off + sizeSum L) (blockBytes b)) off (L ++ [b]) := by
  rw [layoutOk_append]
  refine ⟨layoutOk_frame _ _ _ _ _ hL (Or.inl le_rfl), ?_⟩
  exact ⟨hb, fileHas_self _ _ _, trivial⟩

theorem layoutOk_replace (f : ℕ → ℕ) (off : ℕ) (L₁ L₂ : List BlockInfo)
    (b b' : BlockInfo) (hL : LayoutOk f off (L₁ ++ b :: L₂))
    (hb' : ValidBlock b') (hsz : bSize b' = bSize b) :
    LayoutOk (writeAt f (off + sizeSum L₁) (blockBytes b')) off
      (L₁ ++ b' :: L₂) := by
  rw [layoutOk_append, layoutOk_cons] at hL ⊢
  obtain ⟨h1, hvb, hfh, h3⟩ := hL
  have hwlen : (blockBytes b').length = bSize b' := blockBytes_length b' hb'
  refine ⟨layoutOk_frame _ _ _ _ _ h1 (Or.inl le_rfl), hb',
    fileHas_self _ _ _, ?_⟩
  rw [hsz]
  exact layoutOk_frame _ _ _ _ _ h3 (Or.inr (by omega))

/- Lookups over block sequences. -/

theorem mapGet_append (A B : List (List ℕ × MapV)) (k : List ℕ) :
    mapGet (A ++ B) k = (mapGet A k).elim (mapGet B k) some := by
  induction A with
  | nil => simp [mapGet]
  | cons p t ih =>
    obtain ⟨k', mv⟩ := p
    by_cases hk : k' = k
    · simp [mapGet, hk]
    · simp [mapGet, hk, ih]

theorem mapGet_liveEntries_none (imv bv : Bool) (off : ℕ) (L : List BlockInfo)
    (k : List ℕ) (h : k ∉ liveKeys L) :
    mapGet (liveEntries imv bv off L) k = none := by
  rw [mapGet_eq_none_iff, liveEntries_keys]
  exact h

/-- Splitting the same block sequence at the same offset yields the same
split (all block sizes are positive). -/
theorem split_unique (L₁ L₂ M₁ M₂ : List BlockInfo) (b c : BlockInfo)
    (h : L₁ ++ b :: L₂ = M₁ ++ c :: M₂)
    (hpos : ∀ x ∈ L₁ ++ b :: L₂, 0 < bSize x)
    (hsum : sizeSum L₁ = sizeSum M₁) : L₁ = M₁ ∧ b = c ∧ L₂ = M₂ := by
  induction L₁ generalizing M₁ with
  | nil =>
    cases M₁ with
    | nil =>
      simp only [List.nil_append] at h
      obtain ⟨h1, h2⟩ := List.cons.inj h
      exact ⟨rfl, h1, h2⟩
    | cons m t =>
      simp only [List.nil_append, List.cons_append] at h
      obtain ⟨rfl, _⟩ := List.cons.inj h
      have hb : 0 < bSize b := hpos b (List.mem_cons_self _ _)
      rw [sizeSum_nil, sizeSum_cons] at hsum
      omega
  | cons a t ih =>
    cases M₁ with
    | nil =>
      simp only [List.cons_append, List.nil_append] at h
      obtain ⟨rfl, _⟩ := List.cons.inj h
      have ha : 0 < bSize a :=
        hpos a (by simp)
      rw [sizeSum_cons, sizeSum_nil] at hsum
      omega
    | cons m M₁' =>
      simp only [List.cons_append] at h
      obtain ⟨rfl, htl⟩ := List.cons.inj h
      rw [sizeSum_cons, sizeSum_cons] at hsum
      have hpos' : ∀ x ∈ t ++ b :: L₂, 0 < bSize x := by
        intro x hx
        exact hpos x (by simp [hx])
      obtain ⟨he1, he2, he3⟩ := ih M₁' htl hpos' (by omega)
      exact ⟨by rw [he1], he2, he3⟩

/-- A member of the free-offset list is the span offset of a free block of
that size. -/
theorem freeOffsets_mem (sz off o : ℕ) (L : List BlockInfo)
    (h : o ∈ freeOffsets sz off L) :
    ∃ L₁ L₂, L = L₁ ++ BlockInfo.free sz :: L₂ ∧ o = off + sizeSum L₁ := by
  induction L generalizing off with
  | nil => exact absurd h (List.not_mem_nil o)
  | cons b t ih =>
    cases b with
    | free s0 =>
      simp only [freeOffsets, List.mem_append] at h
      rcases h with h | h
      · by_cases hs : s0 = sz
        · rw [if_pos hs] at h
          simp only [List.mem_singleton] at h
          subst hs
          exact ⟨[], t, rfl, by rw [sizeSum_nil]; omega⟩
        · rw [if_neg hs] at h
          exact absurd h (List.not_mem_nil o)
      · obtain ⟨L₁, L₂, rfl, ho⟩ := ih (off + s0) h
        exact ⟨BlockInfo.free s0 :: L₁, L₂, rfl,
          by rw [sizeSum_cons]; show o = off + (bSize (BlockInfo.free s0) + sizeSum L₁); rw [bSize]; omega⟩
    | live k v s0 =>
      obtain ⟨L₁, L₂, rfl, ho⟩ := ih (off + s0) h
      exact ⟨BlockInfo.live k v s0 :: L₁, L₂, rfl,
        by rw [sizeSum_cons]; show o = off + (bSize (BlockInfo.live k v s0) + sizeSum L₁); rw [bSize]; omega⟩

/-- A hit in the live entries pins down a live block for the key, at the
offset recorded in the entry. -/
theorem liveEntries_mem (imv bv : Bool) (off : ℕ) (L : List BlockInfo)
    (k : List ℕ) (mv : MapV)
    (h : mapGet (liveEntries imv bv off L) k = some mv) :
    ∃ L₁ v sz L₂, L = L₁ ++ BlockInfo.live k v sz :: L₂ ∧
      mv = mkMapV imv bv k v (off + sizeSum L₁) sz := by
  induction L generalizing off with
  | nil => exact absurd h (by simp [liveEntries, mapGet])
  | cons b t ih =>
    cases b with
    | free s0 =>
      obtain ⟨L₁, v, sz, L₂, rfl, hmv⟩ := ih (off + s0) h
      refine ⟨BlockInfo.free s0 :: L₁, v, sz, L₂, rfl, ?_⟩
      rw [hmv, sizeSum_cons]
      show mkMapV imv bv k v (off + s0 + sizeSum L₁) sz =
        mkMapV imv bv k v (off + (bSize (BlockInfo.free s0) + sizeSum L₁)) sz
      rw [bSize, show off + s0 + sizeSum L₁ = off + (s0 + sizeSum L₁) from by omega]
    | live k0 v0 s0 =>
      by_cases hk : k0 = k
      · subst hk
        have h' : some (mkMapV imv bv k0 v0 off s0) = some mv := by
          rw [← h]
          simp [liveEntries, mapGet]
        rw [Option.some.injEq] at h'
        exact ⟨[], v0, s0, t, rfl, by rw [sizeSum_nil, Nat.add_zero, ← h']⟩
      · simp only [liveEntries, mapGet, if_neg hk] at h
        obtain ⟨L₁, v, sz, L₂, rfl, hmv⟩ := ih (off + s0) h
        refine ⟨BlockInfo.live k0 v0 s0 :: L₁, v, sz, L₂, rfl, ?_⟩
        rw [hmv, sizeSum_cons]
        show mkMapV imv bv k v (off + s0 + sizeSum L₁) sz =
          mkMapV imv bv k v (off + (bSize (BlockInfo.live k0 v0 s0) + sizeSum L₁)) sz
        rw [bSize, show off + s0 + sizeSum L₁ = off + (s0 + sizeSum L₁) from by omega]



/-- Placing and writing a fresh live block (insertEntryBuffer): whether the
offset is popped from the registry or appended at eof, the layout invariant
is preserved and the index of live entries gains exactly the new key. -/
theorem place_write_inv (imv bv : Bool) (L : List BlockInfo) (f : ℕ → ℕ)
    (fb : ℕ → List ℕ) (eof : ℕ) (k vb buf : List ℕ)
    (hL : LayoutOk f 0 L) (hsum : sizeSum L = eof)
    (hnd : (liveKeys L).Nodup)
    (hfb : ∀ sz, (fb sz).Nodup ∧ ∀ o ∈ fb sz, o ∈ freeOffsets sz 0 L)
    (hbuf : buf = blockBytes (BlockInfo.live k vb buf.length))
    (hval : ValidBlock (BlockInfo.live k vb buf.length))
    (hknot : k ∉ liveKeys L) :
    ∃ L₂,
      LayoutOk (writeAt f (place fb eof buf.length).1 buf) 0 L₂ ∧
      sizeSum L₂ = (place fb eof buf.length).2.1 ∧
      (∀ k', mapGet (liveEntries imv bv 0 L₂) k' =
        if k' = k then
          some (mkMapV imv bv k vb (place fb eof buf.length).1 buf.length)
        else mapGet (liveEntries imv bv 0 L) k') ∧
      (liveKeys L₂).Nodup ∧
      (∀ sz, ((place fb eof buf.length).2.2 sz).Nodup ∧
        ∀ o ∈ (place fb eof buf.length).2.2 sz, o ∈ freeOffsets sz 0 L₂) := by
  cases hpl : fb buf.length with
  | nil =>
    rw [place_nil _ _ _ hpl]
    dsimp only
    refine ⟨L ++ [BlockInfo.live k vb buf.length], ?_, ?_, ?_, ?_, ?_⟩
    · have hs := layoutOk_snoc f 0 L (BlockInfo.live k vb buf.length) hL hval
      rw [Nat.zero_add, hsum, ← hbuf] at hs
      exact hs
    · rw [sizeSum_append, hsum]
      simp [sizeSum, bSize]
    · intro k'
      rw [liveEntries_append, mapGet_append]
      by_cases hk' : k' = k
      · subst hk'
        rw [mapGet_liveEntries_none imv bv 0 L k' hknot, Option.elim_none,
          if_pos rfl]
        simp [liveEntries, mapGet, hsum]
      · rw [if_neg hk']
        cases hA : mapGet (liveEntries imv bv 0 L) k' with
        | some mv => rw [Option.elim_some]
        | none =>
          rw [Option.elim_none]
          exact mapGet_liveEntries_none imv bv _ _ k'
            (by simpa [liveKeys] using hk')
    · rw [liveKeys_append]
      show (liveKeys L ++ [k]).Nodup
      rw [List.nodup_append]
      refine ⟨hnd, List.nodup_singleton k, ?_⟩
      intro a ha hb
      rw [List.mem_singleton] at hb
      subst hb
      exact hknot ha
    · intro sz
      refine ⟨(hfb sz).1, fun o ho => ?_⟩
      rw [freeOffsets_append]
      exact List.mem_append_left _ ((hfb sz).2 o ho)
  | cons off0 rest =>
    rw [place_cons _ _ _ _ _ hpl]
    dsimp only
    have hmem : off0 ∈ fb buf.length := by
      rw [hpl]
      exact List.mem_cons_self _ _
    obtain ⟨L₁, L₂, hLeq, hoff⟩ :=
      freeOffsets_mem buf.length 0 off0 L ((hfb buf.length).2 off0 hmem)
    subst hLeq
    have hknot1 : k ∉ liveKeys L₁ := by
      intro hm
      apply hknot
      rw [liveKeys_append]
      exact List.mem_append_left _ hm
    have hknot2 : k ∉ liveKeys L₂ := by
      intro hm
      apply hknot
      rw [liveKeys_append]
      exact List.mem_append_right _ hm
    refine ⟨L₁ ++ BlockInfo.live k vb buf.length :: L₂, ?_, ?_, ?_, ?_, ?_⟩
    · have hr := layoutOk_replace f 0 L₁ L₂ (BlockInfo.free buf.length)
        (BlockInfo.live k vb buf.length) hL hval rfl
      rw [Nat.zero_add, ← hbuf] at hr
      rw [hoff, Nat.zero_add]
      exact hr
    · have hs : sizeSum (L₁ ++ BlockInfo.free buf.length :: L₂) = eof := hsum
      rw [sizeSum_append, sizeSum_cons] at hs ⊢
      show sizeSum L₁ + (buf.length + sizeSum L₂) = eof
      have hs' : sizeSum L₁ + (buf.length + sizeSum L₂) = eof := by
        rw [show (bSize (BlockInfo.free buf.length)) = buf.length from rfl] at hs
        exact hs
      exact hs'
    · intro k'
      simp only [liveEntries_append, mapGet_append]
      by_cases hk' : k' = k
      · subst hk'
        rw [if_pos rfl, mapGet_liveEntries_none imv bv 0 L₁ k' hknot1,
          Option.elim_none, hoff]
        simp [liveEntries, mapGet]
      · rw [if_neg hk']
        cases hA : mapGet (liveEntries imv bv 0 L₁) k' with
        | some mv => rw [Option.elim_some, Option.elim_some]
        | none =>
          rw [Option.elim_none, Option.elim_none]
          show (if k = k' then
              some (mkMapV imv bv k vb (0 + sizeSum L₁) buf.length)
            else mapGet (liveEntries imv bv (0 + sizeSum L₁ + buf.length) L₂) k') =
            mapGet (liveEntries imv bv (0 + sizeSum L₁ + buf.length) L₂) k'
          rw [if_neg (fun hh => hk' hh.symm)]
    · rw [liveKeys_append]
      have hnd' : (liveKeys L₁ ++ liveKeys L₂).Nodup := by
        have h0 := hnd
        rw [liveKeys_append] at h0
        exact h0
      show (liveKeys L₁ ++ k :: liveKeys L₂).Nodup
      rw [List.nodup_middle, List.nodup_cons]
      refine ⟨?_, hnd'⟩
      intro hm
      rcases List.mem_append.mp hm with h | h
      · exact hknot1 h
      · exact hknot2 h
    · intro sz
      constructor
      · by_cases hsz : sz = buf.length
        · subst hsz
          rw [fbSet_self]
          have hndfb := (hfb buf.length).1
          rw [hpl] at hndfb
          exact (List.nodup_cons.mp hndfb).2
        · rw [fbSet_ne _ _ _ _ hsz]
          exact (hfb sz).1
      · intro o ho
        by_cases hsz : sz = buf.length
        · subst hsz
          rw [fbSet_self] at ho
          have ho' : o ∈ fb buf.length := by
            rw [hpl]
            exact List.mem_cons_of_mem _ ho
          have hin := (hfb buf.length).2 o ho'
          have hne : o ≠ off0 := by
            have hndfb := (hfb buf.length).1
            rw [hpl] at hndfb
            intro he
            subst he
            exact (List.nodup_cons.mp hndfb).1 ho
          rw [freeOffsets_append] at hin ⊢
          rcases List.mem_append.mp hin with h | h
          · exact List.mem_append_left _ h
          · refine List.mem_append_right _ ?_
            have hh : o ∈ (if buf.length = buf.length then [0 + sizeSum L₁]
                else []) ++
                freeOffsets buf.length (0 + sizeSum L₁ + buf.length) L₂ := h
            rw [if_pos rfl] at hh
            rcases List.mem_append.mp hh with h1 | h1
            · rw [List.mem_singleton] at h1
              exact absurd (h1.trans hoff.symm) hne
            · exact h1
        · rw [fbSet_ne _ _ _ _ hsz] at ho
          have hin := (hfb sz).2 o ho
          rw [freeOffsets_append] at hin ⊢
          rcases List.mem_append.mp hin with h | h
          · exact List.mem_append_left _ h
          · refine List.mem_append_right _ ?_
            have hh : o ∈ (if buf.length = sz then [0 + sizeSum L₁] else []) ++
                freeOffsets sz (0 + sizeSum L₁ + buf.length) L₂ := h
            rw [if_neg (fun he => hsz he.symm), List.nil_append] at hh
            exact hh



/-- Overwriting a live block with its free image (clearBlock): deletion and
the relocation prologue keep the layout valid, drop exactly the key from
the live entries, and turn the offset into a free offset of the old size,
which was not a free offset before. -/
theorem free_block_inv (imv bv : Bool) (f : ℕ → ℕ) (L₁ L₂ : List BlockInfo)
    (k vb : List ℕ) (s0 : ℕ)
    (hL : LayoutOk f 0 (L₁ ++ BlockInfo.live k vb s0 :: L₂))
    (hnd : (liveKeys (L₁ ++ BlockInfo.live k vb s0 :: L₂)).Nodup) :
    LayoutOk (writeAt f (sizeSum L₁)
        (freeFlags s0 :: List.replicate (s0 - 1) 0)) 0
      (L₁ ++ BlockInfo.free s0 :: L₂) ∧
    sizeSum (L₁ ++ BlockInfo.free s0 :: L₂) =
      sizeSum (L₁ ++ BlockInfo.live k vb s0 :: L₂) ∧
    (∀ k', mapGet (liveEntries imv bv 0 (L₁ ++ BlockInfo.free s0 :: L₂)) k' =
      if k' = k then none
      else mapGet
        (liveEntries imv bv 0 (L₁ ++ BlockInfo.live k vb s0 :: L₂)) k') ∧
    (liveKeys (L₁ ++ BlockInfo.free s0 :: L₂)).Nodup ∧
    (∀ sz o, o ∈ freeOffsets sz 0 (L₁ ++ BlockInfo.live k vb s0 :: L₂) →
      o ∈ freeOffsets sz 0 (L₁ ++ BlockInfo.free s0 :: L₂)) ∧
    sizeSum L₁ ∈ freeOffsets s0 0 (L₁ ++ BlockInfo.free s0 :: L₂) ∧
    (∀ sz, sizeSum L₁ ∉ freeOffsets sz 0 (L₁ ++ BlockInfo.live k vb s0 :: L₂)) := by
  have hvl : ValidBlock (BlockInfo.live k vb s0) :=
    layoutOk_valid f 0 _ hL (BlockInfo.live k vb s0) (by simp)
  have hvf : ValidBlock (BlockInfo.free s0) := hvl.1
  have hk1 : k ∉ liveKeys L₁ ∧ k ∉ liveKeys L₂ ∧
      (liveKeys L₁ ++ liveKeys L₂).Nodup := by
    have h0 := hnd
    rw [liveKeys_append] at h0
    have h1 : (liveKeys L₁ ++ k :: liveKeys L₂).Nodup := h0
    rw [List.nodup_middle, List.nodup_cons] at h1
    refine ⟨?_, ?_, h1.2⟩
    · intro hm
      exact h1.1 (List.mem_append_left _ hm)
    · intro hm
      exact h1.1 (List.mem_append_right _ hm)
  refine ⟨?_, ?_, ?_, ?_, ?_, ?_, ?_⟩
  · have hr := layoutOk_replace f 0 L₁ L₂ (BlockInfo.live k vb s0)
      (BlockInfo.free s0) hL hvf rfl
    rw [Nat.zero_add] at hr
    exact hr
  · rw [sizeSum_append, sizeSum_append, sizeSum_cons, sizeSum_cons]
    rfl
  · intro k'
    simp only [liveEntries_append, mapGet_append]
    by_cases hk' : k' = k
    · subst hk'
      rw [if_pos rfl, mapGet_liveEntries_none imv bv 0 L₁ k' hk1.1,
        Option.elim_none]
      show mapGet (liveEntries imv bv (0 + sizeSum L₁ + s0) L₂) k' = none
      exact mapGet_liveEntries_none imv bv _ L₂ k' hk1.2.1
    · rw [if_neg hk']
      cases hA : mapGet (liveEntries imv bv 0 L₁) k' with
      | some mv => rw [Option.elim_some, Option.elim_some]
      | none =>
        rw [Option.elim_none, Option.elim_none]
        show mapGet (liveEntries imv bv (0 + sizeSum L₁ + s0) L₂) k' =
          (if k = k' then some (mkMapV imv bv k vb (0 + sizeSum L₁) s0)
           else mapGet (liveEntries imv bv (0 + sizeSum L₁ + s0) L₂) k')
        rw [if_neg (fun hh => hk' hh.symm)]
  · rw [liveKeys_append]
    exact hk1.2.2
  · intro sz o hin
    rw [freeOffsets_append] at hin ⊢
    rcases List.mem_append.mp hin with h | h
    · exact List.mem_append_left _ h
    · refine List.mem_append_right _ ?_
      have hh : o ∈ freeOffsets sz (0 + sizeSum L₁ + s0) L₂ := h
      show o ∈ (if s0 = sz then [0 + sizeSum L₁] else []) ++
        freeOffsets sz (0 + sizeSum L₁ + s0) L₂
      exact List.mem_append_right _ hh
  · rw [freeOffsets_append]
    refine List.mem_append_right _ ?_
    show sizeSum L₁ ∈ (if s0 = s0 then [0 + sizeSum L₁] else []) ++
      freeOffsets s0 (0 + sizeSum L₁ + s0) L₂
    rw [if_pos rfl, Nat.zero_add]
    exact List.mem_append_left _ (List.mem_singleton.mpr rfl)
  · intro sz hmem
    obtain ⟨M₁, M₂, hMeq, hMo⟩ := freeOffsets_mem sz 0 _ _ hmem
    have hpos : ∀ x ∈ L₁ ++ BlockInfo.live k vb s0 :: L₂, 0 < bSize x := by
      intro x hx
      have := validBlock_pos x (layoutOk_valid f 0 _ hL x hx)
      omega
    obtain ⟨he1, he2, he3⟩ := split_unique L₁ L₂ M₁ M₂
      (BlockInfo.live k vb s0) (BlockInfo.free sz) hMeq hpos (by omega)
    exact BlockInfo.noConfusion he2



/- Preservation of the invariant by the engine operations. -/

theorem inv_init (bv imv : Bool) : Inv (freshStore bv imv) := by
  refine ⟨rfl, List.nodup_nil, [], trivial, rfl, ?_, List.nodup_nil, ?_⟩
  · intro k
    rfl
  · intro sz
    exact ⟨List.nodup_nil, fun o ho => absurd ho (List.not_mem_nil o)⟩

theorem inv_clear (S : Store) (hI : Inv S) : Inv (clearOp S) := by
  obtain ⟨hf, _, _⟩ := hI
  unfold clearOp
  rw [if_pos hf]
  refine ⟨hf, List.nodup_nil, [], trivial, rfl, ?_, List.nodup_nil, ?_⟩
  · intro k
    rfl
  · intro sz
    exact ⟨List.nodup_nil, fun o ho => absurd ho (List.not_mem_nil o)⟩

theorem newMapV_eq_mkMapV (imv bv : Bool) (v : Value) (k : List ℕ)
    (o s vo vs : ℕ)
    (hvo : vo = (if isLargeKV k (normalize bv v).bytes then 7 else 4) + k.length)
    (hvs : vs = (normalize bv v).bytes.length) :
    newMapV imv (normalize bv v) o s vo vs =
      mkMapV imv bv k (normalize bv v).bytes o s := by
  cases imv
  · simp only [newMapV, mkMapV, Bool.false_eq_true, if_false]
    rw [hvo, hvs]
  · simp only [newMapV, mkMapV, if_true]
    rw [decode_normalize]

theorem updMapV_fit_eq (imv bv : Bool) (v : Value) (k vb0 : List ℕ)
    (o0 s0 s vo vs : ℕ)
    (hvo : vo = (if isLargeKV k (normalize bv v).bytes then 7 else 4) + k.length)
    (hvs : vs = (normalize bv v).bytes.length) :
    { updMapV imv (mkMapV imv bv k vb0 o0 s0) (normalize bv v) vo vs with
        s := s } =
      mkMapV imv bv k (normalize bv v).bytes o0 s := by
  cases imv
  · simp only [updMapV, mkMapV, Bool.false_eq_true, if_false]
    rw [hvo, hvs]
  · simp only [updMapV, mkMapV, if_true]
    rw [decode_normalize]

theorem updMapV_rel_eq (imv bv : Bool) (v : Value) (k vb0 : List ℕ)
    (o0 s0 o s vo vs : ℕ)
    (hvo : vo = (if isLargeKV k (normalize bv v).bytes then 7 else 4) + k.length)
    (hvs : vs = (normalize bv v).bytes.length) :
    { updMapV imv (mkMapV imv bv k vb0 o0 s0) (normalize bv v) vo vs with
        o := o, s := s } =
      mkMapV imv bv k (normalize bv v).bytes o s := by
  cases imv
  · simp only [updMapV, mkMapV, Bool.false_eq_true, if_false]
    rw [hvo, hvs]
  · simp only [updMapV, mkMapV, if_true]
    rw [decode_normalize]

theorem mkMapV_o (imv bv : Bool) (k v : List ℕ) (off sz : ℕ) :
    (mkMapV imv bv k v off sz).o = off := by
  cases imv <;> simp [mkMapV]

theorem mkMapV_s (imv bv : Bool) (k v : List ℕ) (off sz : ℕ) :
    (mkMapV imv bv k v off sz).s = sz := by
  cases imv <;> simp [mkMapV]

theorem inv_delete (S : Store) (k : List ℕ) (S₂ : Store)
    (hI : Inv S) (h : deleteOp S k = some S₂) : Inv S₂ := by
  obtain ⟨hf, hmnd, L, hL, hsum, hmatch, hknd, hreg⟩ := hI
  unfold deleteOp at h
  cases hg : mapGet S.map k with
  | none =>
    rw [hg, Option.elim_none, Option.some.injEq] at h
    subst h
    exact ⟨hf, hmnd, L, hL, hsum, hmatch, hknd, hreg⟩
  | some mv =>
    rw [hg, Option.elim_some, if_neg (by simp [hf])] at h
    have hmv : mapGet (liveEntries S.inMemoryValues S.bufferValues 0 L) k =
        some mv := by
      rw [← hmatch k]
      exact hg
    obtain ⟨L₁, vb0, sz0, L₂old, hLeq, hmveq⟩ :=
      liveEntries_mem _ _ 0 L k mv hmv
    subst hLeq
    have hmvo : mv.o = 0 + sizeSum L₁ := by rw [hmveq, mkMapV_o]
    have hmvs : mv.s = sz0 := by rw [hmveq, mkMapV_s]
    have hvl : ValidBlock (BlockInfo.live k vb0 sz0) :=
      layoutOk_valid S.file 0 _ hL (BlockInfo.live k vb0 sz0) (by simp)
    have hlad : IsLadder sz0 := hvl.1
    have h35 := (isLadder_bsP_le sz0 hlad).1
    have hcf : blockSizeToFlags mv.s 128 = some (freeFlags mv.s) := by
      rw [hmvs]
      unfold blockSizeToFlags freeFlags
      rw [if_neg (by omega)]
      have h128 : (128:ℕ) &&& 192 = 128 := by decide
      rw [h128]
    rw [hcf, Option.map_some', Option.some.injEq] at h
    subst h
    obtain ⟨hLA, hsumA, hmatchA, hkndA, hmono, hmemA, hnotA⟩ :=
      free_block_inv S.inMemoryValues S.bufferValues S.file L₁ L₂old k vb0 sz0
        hL hknd
    refine ⟨hf, nodup_keys_mapDelete _ _ hmnd,
      L₁ ++ BlockInfo.free sz0 :: L₂old, ?_, ?_, ?_, hkndA, ?_⟩
    · show LayoutOk (writeAt S.file mv.o
        (freeFlags mv.s :: List.replicate (mv.s - 1) 0)) 0 _
      rw [hmvo, hmvs, Nat.zero_add]
      exact hLA
    · exact hsumA.trans hsum
    · intro k'
      rw [hmatchA k']
      by_cases hk' : k' = k
      · subst hk'
        rw [if_pos rfl]
        show mapGet (mapDelete S.map k') k' = none
        exact mapGet_mapDelete_self _ _ hmnd
      · rw [if_neg hk']
        show mapGet (mapDelete S.map k) k' = _
        rw [mapGet_mapDelete_ne _ _ _ (fun hh => hk' hh.symm)]
        exact hmatch k'
    · intro sz
      constructor
      · show (fbPush S.freeBlocks mv.s mv.o sz).Nodup
        by_cases hsz : sz = mv.s
        · rw [hsz, fbPush_self, List.nodup_cons]
          refine ⟨?_, (hreg mv.s).1⟩
          intro hm
          have hin := (hreg mv.s).2 mv.o hm
          rw [hmvo, Nat.zero_add] at hin
          exact hnotA mv.s hin
        · rw [fbPush_ne _ _ _ _ hsz]
          exact (hreg sz).1
      · intro o ho
        have ho' : o ∈ fbPush S.freeBlocks mv.s mv.o sz := ho
        show o ∈ freeOffsets sz 0 (L₁ ++ BlockInfo.free sz0 :: L₂old)
        by_cases hsz : sz = mv.s
        · rw [hsz, fbPush_self] at ho'
          rcases List.mem_cons.mp ho' with rfl | hm
          · rw [hsz, hmvo, Nat.zero_add, hmvs]
            exact hmemA
          · rw [hsz]
            exact hmono mv.s o ((hreg mv.s).2 o hm)
        · rw [fbPush_ne _ _ _ _ hsz] at ho'
          exact hmono sz o ((hreg sz).2 o ho')



theorem inv_set (S : Store) (k : List ℕ) (v : Value) (S₂ : Store)
    (hI : Inv S) (h : setOp S k v = some S₂) : Inv S₂ := by
  obtain ⟨hf, hmnd, L, hL, hsum, hmatch, hknd, hreg⟩ := hI
  unfold setOp at h
  cases hg : mapGet S.map k with
  | none =>
    rw [hg, Option.elim_none] at h
    unfold insertOp at h
    rw [if_neg (by simp [hf])] at h
    cases hb : entryBuffer k (normalize S.bufferValues v).bytes 0 with
    | none =>
      rw [hb] at h
      exact absurd h (by simp)
    | some bvv =>
      obtain ⟨buf, vo, vs⟩ := bvv
      obtain ⟨hvo, hvs, _, _, hszle, hcanon, hbranch⟩ :=
        entryBufferRaw_spec (fun _ => 0) k (normalize S.bufferValues v).bytes 0
          buf vo vs hb
      rw [hb, Option.map_some', Option.some.injEq] at h
      dsimp only at h
      subst h
      have hknot : k ∉ liveKeys L := by
        intro hm
        have hnone : mapGet (liveEntries S.inMemoryValues S.bufferValues 0 L) k
            = none := by
          rw [← hmatch k]
          exact hg
        rw [mapGet_eq_none_iff, liveEntries_keys] at hnone
        exact hnone hm
      have hlad : IsLadder buf.length := by
        rcases hbranch with ⟨hfit, _⟩ | ⟨_, _, hl⟩
        · exfalso
          have h4 : 4 ≤ entrySizeOf k (normalize S.bufferValues v).bytes := by
            unfold entrySizeOf
            split <;> omega
          omega
        · exact hl
      obtain ⟨L₂, hL₂, hsum₂, hmatch₂, hknd₂, hreg₂⟩ :=
        place_write_inv S.inMemoryValues S.bufferValues L S.file S.freeBlocks
          S.eof k (normalize S.bufferValues v).bytes buf hL hsum hknd hreg
          hcanon ⟨hlad, hszle⟩ hknot
      refine ⟨hf, nodup_keys_mapSet _ _ _ hmnd, L₂, hL₂, hsum₂, ?_, hknd₂,
        hreg₂⟩
      intro k'
      show mapGet (mapSet S.map k _) k' =
        mapGet (liveEntries S.inMemoryValues S.bufferValues 0 L₂) k'
      rw [hmatch₂ k']
      by_cases hk' : k' = k
      · subst hk'
        rw [mapGet_mapSet_self, if_pos rfl]
        rw [newMapV_eq_mkMapV S.inMemoryValues S.bufferValues v k' _ _ vo vs
          hvo hvs]
      · rw [mapGet_mapSet_ne _ _ _ _ (fun hh => hk' hh.symm), if_neg hk']
        exact hmatch k'
  | some mv =>
    rw [hg, Option.elim_some] at h
    unfold updateOp at h
    rw [if_neg (by simp [hf])] at h
    cases hb : entryBuffer k (normalize S.bufferValues v).bytes mv.s with
    | none =>
      rw [hb] at h
      exact absurd h (by simp)
    | some bvv =>
      obtain ⟨buf, vo, vs⟩ := bvv
      obtain ⟨hvo, hvs, _, _, hszle, hcanon, hbranch⟩ :=
        entryBufferRaw_spec (fun _ => 0) k (normalize S.bufferValues v).bytes
          mv.s buf vo vs hb
      rw [hb, Option.some_bind] at h
      dsimp only at h
      have hmv : mapGet (liveEntries S.inMemoryValues S.bufferValues 0 L) k =
          some mv := by
        rw [← hmatch k]
        exact hg
      obtain ⟨L₁, vb0, sz0, L₂old, hLeq, hmveq⟩ :=
        liveEntries_mem _ _ 0 L k mv hmv
      subst hLeq
      have hmvo : mv.o = 0 + sizeSum L₁ := by rw [hmveq, mkMapV_o]
      have hmvs : mv.s = sz0 := by rw [hmveq, mkMapV_s]
      have hvl : ValidBlock (BlockInfo.live k vb0 sz0) :=
        layoutOk_valid S.file 0 _ hL (BlockInfo.live k vb0 sz0) (by simp)
      have hlad0 : IsLadder sz0 := hvl.1
      have hknds : k ∉ liveKeys L₁ ∧ k ∉ liveKeys L₂old ∧
          (liveKeys L₁ ++ liveKeys L₂old).Nodup := by
        have h0 := hknd
        rw [liveKeys_append] at h0
        have h1 : (liveKeys L₁ ++ k :: liveKeys L₂old).Nodup := h0
        rw [List.nodup_middle, List.nodup_cons] at h1
        exact ⟨fun hm => h1.1 (List.mem_append_left _ hm),
          fun hm => h1.1 (List.mem_append_right _ hm), h1.2⟩
      by_cases hrel : mv.s < buf.length
      · rw [if_pos hrel] at h
        have h35 := (isLadder_bsP_le sz0 hlad0).1
        have hcf : blockSizeToFlags mv.s 128 = some (freeFlags mv.s) := by
          rw [hmvs]
          unfold blockSizeToFlags freeFlags
          rw [if_neg (by omega)]
          have h128 : (128:ℕ) &&& 192 = 128 := by decide
          rw [h128]
        rw [hcf, Option.map_some', Option.some.injEq] at h
        subst h
        have hladB : IsLadder buf.length := by
          rcases hbranch with ⟨hfit, hlen⟩ | ⟨_, _, hl⟩
          · omega
          · exact hl
        obtain ⟨hLA, hsumA, hmatchA, hkndA, hmono, hmemA, hnotA⟩ :=
          free_block_inv S.inMemoryValues S.bufferValues S.file L₁ L₂old k vb0
            sz0 hL hknd
        have hLA' : LayoutOk (writeAt S.file mv.o
            (freeFlags mv.s :: List.replicate (mv.s - 1) 0)) 0
            (L₁ ++ BlockInfo.free sz0 :: L₂old) := by
          rw [hmvo, hmvs, Nat.zero_add]
          exact hLA
        have hfbA : ∀ sz, ((fbPush S.freeBlocks mv.s mv.o) sz).Nodup ∧
            ∀ o ∈ (fbPush S.freeBlocks mv.s mv.o) sz,
              o ∈ freeOffsets sz 0 (L₁ ++ BlockInfo.free sz0 :: L₂old) := by
          intro sz
          constructor
          · by_cases hsz : sz = mv.s
            · rw [hsz, fbPush_self, List.nodup_cons]
              refine ⟨?_, (hreg mv.s).1⟩
              intro hm
              have hin := (hreg mv.s).2 mv.o hm
              rw [hmvo, Nat.zero_add] at hin
              exact hnotA mv.s hin
            · rw [fbPush_ne _ _ _ _ hsz]
              exact (hreg sz).1
          · intro o ho
            by_cases hsz : sz = mv.s
            · rw [hsz, fbPush_self] at ho
              rcases List.mem_cons.mp ho with rfl | hm
              · rw [hsz, hmvo, Nat.zero_add, hmvs]
                exact hmemA
              · rw [hsz]
                exact hmono mv.s o ((hreg mv.s).2 o hm)
            · rw [fbPush_ne _ _ _ _ hsz] at ho
              exact hmono sz o ((hreg sz).2 o ho)
        have hknotA : k ∉ liveKeys (L₁ ++ BlockInfo.free sz0 :: L₂old) := by
          rw [liveKeys_append]
          intro hm
          rcases List.mem_append.mp hm with hm1 | hm1
          · exact hknds.1 hm1
          · exact hknds.2.1 hm1
        obtain ⟨L₂, hL₂, hsum₂, hmatch₂, hknd₂, hreg₂⟩ :=
          place_write_inv S.inMemoryValues S.bufferValues
            (L₁ ++ BlockInfo.free sz0 :: L₂old)
            (writeAt S.file mv.o
              (freeFlags mv.s :: List.replicate (mv.s - 1) 0))
            (fbPush S.freeBlocks mv.s mv.o) S.eof k
            (normalize S.bufferValues v).bytes buf hLA' (hsumA.trans hsum)
            hkndA hfbA hcanon ⟨hladB, hszle⟩ hknotA
        refine ⟨hf, nodup_keys_mapSet _ _ _ hmnd, L₂, hL₂, hsum₂, ?_, hknd₂,
          hreg₂⟩
        intro k'
        show mapGet (mapSet S.map k _) k' =
          mapGet (liveEntries S.inMemoryValues S.bufferValues 0 L₂) k'
        rw [hmatch₂ k']
        by_cases hk' : k' = k
        · subst hk'
          rw [mapGet_mapSet_self, if_pos rfl, hmveq]
          rw [updMapV_rel_eq S.inMemoryValues S.bufferValues v k' vb0
            (0 + sizeSum L₁) sz0 _ _ vo vs hvo hvs]
        · rw [mapGet_mapSet_ne _ _ _ _ (fun hh => hk' hh.symm), if_neg hk',
            hmatchA k', if_neg hk']
          exact hmatch k'
      · rw [if_neg hrel, Option.some.injEq] at h
        subst h
        have hlen : buf.length = mv.s := by
          rcases hbranch with ⟨_, hlen⟩ | ⟨hlt, _, _⟩
          · exact hlen
          · omega
        have hval' : ValidBlock (BlockInfo.live k
            (normalize S.bufferValues v).bytes buf.length) := by
          refine ⟨?_, hszle⟩
          rw [hlen, hmvs]
          exact hlad0
        have hr := layoutOk_replace S.file 0 L₁ L₂old
          (BlockInfo.live k vb0 sz0)
          (BlockInfo.live k (normalize S.bufferValues v).bytes buf.length)
          hL hval' (by show buf.length = sz0; omega)
        rw [Nat.zero_add, ← hcanon] at hr
        refine ⟨hf, nodup_keys_mapSet _ _ _ hmnd,
          L₁ ++ BlockInfo.live k (normalize S.bufferValues v).bytes buf.length
            :: L₂old, ?_, ?_, ?_, ?_, ?_⟩
        · show LayoutOk (writeAt S.file mv.o buf) 0 _
          rw [hmvo, Nat.zero_add]
          exact hr
        · show sizeSum _ = S.eof
          rw [sizeSum_append, sizeSum_cons] at hsum ⊢
          show sizeSum L₁ + (buf.length + sizeSum L₂old) = S.eof
          have hs0 : sizeSum L₁ + (sz0 + sizeSum L₂old) = S.eof := hsum
          omega
        · intro k'
          show mapGet (mapSet S.map k _) k' =
            mapGet (liveEntries S.inMemoryValues S.bufferValues 0
              (L₁ ++ BlockInfo.live k (normalize S.bufferValues v).bytes
                buf.length :: L₂old)) k'
          simp only [liveEntries_append, mapGet_append]
          by_cases hk' : k' = k
          · subst hk'
            rw [mapGet_mapSet_self,
              mapGet_liveEntries_none _ _ 0 L₁ k' hknds.1, Option.elim_none]
            have hstep : mapGet (liveEntries S.inMemoryValues S.bufferValues
                (0 + sizeSum L₁) (BlockInfo.live k'
                  (normalize S.bufferValues v).bytes buf.length :: L₂old)) k' =
                some (mkMapV S.inMemoryValues S.bufferValues k'
                  (normalize S.bufferValues v).bytes (0 + sizeSum L₁)
                  buf.length) := by
              simp [liveEntries, mapGet]
            rw [hstep, hmveq]
            rw [updMapV_fit_eq S.inMemoryValues S.bufferValues v k' vb0
              (0 + sizeSum L₁) sz0 _ vo vs hvo hvs]
          · rw [mapGet_mapSet_ne _ _ _ _ (fun hh => hk' hh.symm)]
            have hold := hmatch k'
            rw [liveEntries_append, mapGet_append] at hold
            rw [hold]
            cases hA : mapGet (liveEntries S.inMemoryValues S.bufferValues 0
                L₁) k' with
            | some mv0 => rw [Option.elim_some, Option.elim_some]
            | none =>
              rw [Option.elim_none, Option.elim_none]
              show (if k = k' then
                  some (mkMapV S.inMemoryValues S.bufferValues k vb0
                    (0 + sizeSum L₁) sz0)
                else mapGet (liveEntries S.inMemoryValues S.bufferValues
                  (0 + sizeSum L₁ + sz0) L₂old) k') =
                (if k = k' then
                  some (mkMapV S.inMemoryValues S.bufferValues k
                    (normalize S.bufferValues v).bytes (0 + sizeSum L₁)
                    buf.length)
                else mapGet (liveEntries S.inMemoryValues S.bufferValues
                  (0 + sizeSum L₁ + buf.length) L₂old) k')
              rw [if_neg (fun hh => hk' hh.symm),
                if_neg (fun hh => hk' hh.symm)]
              rw [show buf.length = sz0 from by omega]
        · rw [liveKeys_append]
          have h0 := hknd
          rw [liveKeys_append] at h0
          exact h0
        · intro sz
          refine ⟨(hreg sz).1, fun o ho => ?_⟩
          have hin := (hreg sz).2 o ho
          rw [freeOffsets_append] at hin ⊢
          rcases List.mem_append.mp hin with hx | hx
          · exact List.mem_append_left _ hx
          · refine List.mem_append_right _ ?_
            have hh : o ∈ freeOffsets sz (0 + sizeSum L₁ + sz0) L₂old := hx
            show o ∈ freeOffsets sz (0 + sizeSum L₁ + buf.length) L₂old
            rw [show buf.length = sz0 from by omega]
            exact hh

theorem reach_inv (S : Store) (h : Reach S) : Inv S := by
  induction h with
  | init bv imv => exact inv_init bv imv
  | set hR hs ih => exact inv_set _ _ _ _ ih hs
  | del hR hd ih => exact inv_delete _ _ _ ih hd
  | clear hR ih => exact inv_clear _ ih



/- Decoding a block back from the file during the loadDB scan. -/

theorem record_getD_lps (F : ℕ) (lps k v pad : List ℕ) (j : ℕ)
    (hj : j < lps.length) :
    (F :: (lps ++ k ++ v ++ pad)).getD (j + 1) 0 = lps.getD j 0 := by
  rw [List.getD_cons_succ]
  rw [getD_append_lt _ pad j (by simp only [List.length_append]; omega)]
  rw [getD_append_lt _ v j (by simp only [List.length_append]; omega)]
  exact getD_append_lt lps k j hj

theorem record_getD_key (F : ℕ) (lps k v pad : List ℕ) (i : ℕ)
    (hi : i < k.length) :
    (F :: (lps ++ k ++ v ++ pad)).getD (lps.length + i + 1) 0 = k.getD i 0 := by
  rw [List.getD_cons_succ]
  rw [getD_append_lt _ pad _ (by simp only [List.length_append]; omega)]
  rw [getD_append_lt _ v _ (by simp only [List.length_append]; omega)]
  exact getD_append_add lps k i

theorem parse_free_block (f : ℕ → ℕ) (off sz : ℕ)
    (hval : ValidBlock (BlockInfo.free sz))
    (hfh : fileHas f off (blockBytes (BlockInfo.free sz))) :
    f off = freeFlags sz ∧ f off &&& 128 ≠ 0 ∧
      extractBlockSize (f off) = sz := by
  have h16 := ladder_16_le sz hval
  have hlen : (blockBytes (BlockInfo.free sz)).length = sz :=
    blockBytes_length_free sz (by omega)
  have h0 := hfh 0 (by omega)
  rw [Nat.add_zero] at h0
  have hD : (blockBytes (BlockInfo.free sz)).getD 0 0 = freeFlags sz := rfl
  rw [hD] at h0
  have hff := freeFlags_facts sz hval
  exact ⟨h0, by rw [h0]; exact hff.1, by rw [h0]; exact hff.2⟩

theorem parse_live_block (imv bv : Bool) (f : ℕ → ℕ) (off : ℕ)
    (k v : List ℕ) (sz : ℕ)
    (hval : ValidBlock (BlockInfo.live k v sz))
    (hfh : fileHas f off (blockBytes (BlockInfo.live k v sz))) :
    f off &&& 128 = 0 ∧
    extractBlockSize (f off) = sz ∧
    readBytes f (off + (if f off &&& 64 ≠ 0 then 7 else 4))
      (if f off &&& 64 ≠ 0 then 256 * f (off + 1) + f (off + 2)
       else f (off + 1)) = k ∧
    parseMapV imv bv f off = mkMapV imv bv k v off sz := by
  obtain ⟨hlad, hesz⟩ := hval
  have hlen : (blockBytes (BlockInfo.live k v sz)).length = sz :=
    blockBytes_length_live k v sz hesz
  have h16 := ladder_16_le sz hlad
  have hlps := lpsBytes_length (isLargeKV k v) k.length v.length
  have heszeq : entrySizeOf k v =
      1 + (if isLargeKV k v then 6 else 3) + k.length + v.length := rfl
  have hesz' : 1 + (if isLargeKV k v then 6 else 3) + k.length + v.length ≤
      sz := by
    rw [← heszeq]
    exact hesz
  have hbound : (lpsBytes (isLargeKV k v) k.length v.length).length + 1 +
      k.length + v.length ≤ sz := by
    rw [hlps]
    omega
  have hshape : blockBytes (BlockInfo.live k v sz) =
      liveFlags sz (isLargeKV k v) ::
        (lpsBytes (isLargeKV k v) k.length v.length ++ k ++ v ++
          List.replicate (sz - entrySizeOf k v) 0) := rfl
  have hflags : f off = liveFlags sz (isLargeKV k v) := by
    have h0 := hfh 0 (by omega)
    rw [Nat.add_zero, hshape, List.getD_cons_zero] at h0
    exact h0
  have hlf := liveFlags_facts sz (isLargeKV k v) hlad
  have hb128 : f off &&& 128 = 0 := by rw [hflags]; exact hlf.1
  have hbext : extractBlockSize (f off) = sz := by rw [hflags]; exact hlf.2.2
  have hb64 : (f off &&& 64 ≠ 0) ↔ (isLargeKV k v = true) := by
    rw [hflags]; exact hlf.2.1
  have hlpsb : ∀ j < (lpsBytes (isLargeKV k v) k.length v.length).length,
      f (off + (j + 1)) =
        (lpsBytes (isLargeKV k v) k.length v.length).getD j 0 := by
    intro j hj
    have hb := hfh (j + 1) (by rw [hlen]; omega)
    rw [hshape, record_getD_lps _ _ _ _ _ j hj] at hb
    exact hb
  have hkeyb : ∀ i < k.length,
      f (off + ((lpsBytes (isLargeKV k v) k.length v.length).length + i + 1)) =
        k.getD i 0 := by
    intro i hi
    have hb := hfh
      ((lpsBytes (isLargeKV k v) k.length v.length).length + i + 1)
      (by rw [hlen]; omega)
    rw [hshape, record_getD_key _ _ _ _ _ i hi] at hb
    exact hb
  have hvalb : ∀ i < v.length,
      f (off + ((lpsBytes (isLargeKV k v) k.length v.length).length +
        k.length + i + 1)) = v.getD i 0 := by
    intro i hi
    have hb := hfh
      ((lpsBytes (isLargeKV k v) k.length v.length).length + k.length + i + 1)
      (by rw [hlen]; omega)
    rw [hshape, record_getD_value _ _ _ _ _ i hi] at hb
    exact hb
  cases hlarge : isLargeKV k v with
  | false =>
    have hcond : ¬ (f off &&& 64 ≠ 0) := by
      rw [hb64, hlarge]
      simp
    have hlpse : lpsBytes (isLargeKV k v) k.length v.length =
        [k.length, v.length / 256, v.length % 256] := by
      rw [hlarge]
      rfl
    have hlps3 : (lpsBytes (isLargeKV k v) k.length v.length).length = 3 := by
      rw [hlpse]
      rfl
    have hb1 : f (off + 1) = k.length := by
      have h0 := hlpsb 0 (by omega)
      rw [hlpse] at h0
      exact h0
    have hb2 : f (off + 2) = v.length / 256 := by
      have h0 := hlpsb 1 (by omega)
      rw [hlpse] at h0
      exact h0
    have hb3 : f (off + 3) = v.length % 256 := by
      have h0 := hlpsb 2 (by omega)
      rw [hlpse] at h0
      exact h0
    have hkey : readBytes f (off + 4) k.length = k := by
      apply readBytes_eq_of_getD _ _ _ _ rfl
      intro i hi
      have hkb := hkeyb i hi
      rw [hlps3] at hkb
      rw [show off + 4 + i = off + (3 + i + 1) from by omega]
      exact hkb
    have hvread : readBytes f (off + 4 + k.length) v.length = v := by
      apply readBytes_eq_of_getD _ _ _ _ rfl
      intro i hi
      have hvb := hvalb i hi
      rw [hlps3] at hvb
      rw [show off + 4 + k.length + i = off + (3 + k.length + i + 1) from
        by omega]
      exact hvb
    have hvl2 : 256 * (v.length / 256) + v.length % 256 = v.length := by omega
    refine ⟨hb128, hbext, ?_, ?_⟩
    · rw [if_neg hcond, if_neg hcond, hb1]
      exact hkey
    · unfold parseMapV mkMapV
      cases imv with
      | false =>
        rw [if_neg Bool.false_ne_true, if_neg Bool.false_ne_true]
        simp only [if_neg hcond]
        rw [hbext, hb1, hb2, hb3, hvl2, hlarge, if_neg Bool.false_ne_true]
      | true =>
        rw [if_pos rfl, if_pos rfl]
        simp only [if_neg hcond]
        rw [hbext, hb1, hb2, hb3, hvl2, hvread]
  | true =>
    have hcond : f off &&& 64 ≠ 0 := by
      rw [hb64]
      exact hlarge
    have hlpse : lpsBytes (isLargeKV k v) k.length v.length =
        [k.length / 256, k.length % 256, v.length / 16777216,
          v.length / 65536 % 256, v.length / 256 % 256, v.length % 256] := by
      rw [hlarge]
      rfl
    have hlps6 : (lpsBytes (isLargeKV k v) k.length v.length).length = 6 := by
      rw [hlpse]
      rfl
    have hb1 : f (off + 1) = k.length / 256 := by
      have h0 := hlpsb 0 (by omega)
      rw [hlpse] at h0
      exact h0
    have hb2 : f (off + 2) = k.length % 256 := by
      have h0 := hlpsb 1 (by omega)
      rw [hlpse] at h0
      exact h0
    have hb3 : f (off + 3) = v.length / 16777216 := by
      have h0 := hlpsb 2 (by omega)
      rw [hlpse] at h0
      exact h0
    have hb4 : f (off + 4) = v.length / 65536 % 256 := by
      have h0 := hlpsb 3 (by omega)
      rw [hlpse] at h0
      exact h0
    have hb5 : f (off + 5) = v.length / 256 % 256 := by
      have h0 := hlpsb 4 (by omega)
      rw [hlpse] at h0
      exact h0
    have hb6 : f (off + 6) = v.length % 256 := by
      have h0 := hlpsb 5 (by omega)
      rw [hlpse] at h0
      exact h0
    have hkldec : 256 * (k.length / 256) + k.length % 256 = k.length := by
      omega
    have hvldec : 16777216 * (v.length / 16777216) +
        65536 * (v.length / 65536 % 256) + 256 * (v.length / 256 % 256) +
        v.length % 256 = v.length := by
      omega
    have hkey : readBytes f (off + 7) k.length = k := by
      apply readBytes_eq_of_getD _ _ _ _ rfl
      intro i hi
      have hkb := hkeyb i hi
      rw [hlps6] at hkb
      rw [show off + 7 + i = off + (6 + i + 1) from by omega]
      exact hkb
    have hvread : readBytes f (off + 7 + k.length) v.length = v := by
      apply readBytes_eq_of_getD _ _ _ _ rfl
      intro i hi
      have hvb := hvalb i hi
      rw [hlps6] at hvb
      rw [show off + 7 + k.length + i = off + (6 + k.length + i + 1) from
        by omega]
      exact hvb
    refine ⟨hb128, hbext, ?_, ?_⟩
    · rw [if_pos hcond, if_pos hcond, hb1, hb2, hkldec]
      exact hkey
    · unfold parseMapV mkMapV
      cases imv with
      | false =>
        rw [if_neg Bool.false_ne_true, if_neg Bool.false_ne_true]
        simp only [if_pos hcond]
        rw [hbext, hb1, hb2, hb3, hb4, hb5, hb6, hkldec, hvldec, hlarge,
          if_pos rfl]
      | true =>
        rw [if_pos rfl, if_pos rfl]
        simp only [if_pos hcond]
        rw [hbext, hb1, hb2, hb3, hb4, hb5, hb6, hkldec, hvldec, hvread]



/-- One unfolding step of the fuel-driven scan. -/
theorem parseLoopF_succ (imv bv : Bool) (f : ℕ → ℕ) (eof fuel off : ℕ)
    (m : List (List ℕ × MapV)) (fb : ℕ → List ℕ) :
    parseLoopF imv bv f eof (fuel + 1) off m fb =
      if off < eof then
        if f off &&& 128 ≠ 0 then
          parseLoopF imv bv f eof fuel (off + extractBlockSize (f off)) m
            (fbPush fb (extractBlockSize (f off)) off)
        else
          parseLoopF imv bv f eof fuel (off + extractBlockSize (f off))
            (mapSet m
              (readBytes f (off + (if f off &&& 64 ≠ 0 then 7 else 4))
                (if f off &&& 64 ≠ 0 then 256 * f (off + 1) + f (off + 2)
                 else f (off + 1)))
              (parseMapV imv bv f off))
            fb
      else (m, fb) := rfl

/-- The loadDB scan described over the abstract block sequence. -/
def parseAbs (imv bv : Bool) :
    List BlockInfo → ℕ → List (List ℕ × MapV) → (ℕ → List ℕ) →
      List (List ℕ × MapV) × (ℕ → List ℕ)
  | [], _, m, fb => (m, fb)
  | .free sz :: rest, off, m, fb =>
      parseAbs imv bv rest (off + sz) m (fbPush fb sz off)
  | .live k v sz :: rest, off, m, fb =>
      parseAbs imv bv rest (off + sz)
        (mapSet m k (mkMapV imv bv k v off sz)) fb

/-- Over a valid layout filling the file up to eof, the byte-level scan
computes exactly the abstract scan (any fuel of at least one unit per
block suffices). -/
theorem parse_of_layout (imv bv : Bool) (f : ℕ → ℕ) (eof : ℕ)
    (L : List BlockInfo) :
    ∀ fuel off m fb, LayoutOk f off L → L.length ≤ fuel →
      eof = off + sizeSum L →
      parseLoopF imv bv f eof fuel off m fb = parseAbs imv bv L off m fb := by
  induction L with
  | nil =>
    intro fuel off m fb hL hfuel heof
    rw [sizeSum_nil, Nat.add_zero] at heof
    subst heof
    cases fuel with
    | zero => rfl
    | succ fuel' =>
      rw [parseLoopF_succ, if_neg (by omega)]
      rfl
  | cons b t ih =>
    intro fuel off m fb hL hfuel heof
    obtain ⟨hvb, hfh, hrest⟩ := hL
    have hpos : 16 ≤ bSize b := validBlock_pos b hvb
    obtain ⟨fuel', rfl⟩ : ∃ n, fuel = n + 1 := by
      cases fuel with
      | zero =>
        rw [List.length_cons] at hfuel
        omega
      | succ n => exact ⟨n, rfl⟩
    rw [sizeSum_cons] at heof
    have hlt : off < eof := by omega
    have hfuel' : t.length ≤ fuel' := by
      rw [List.length_cons] at hfuel
      omega
    cases b with
    | free sz =>
      obtain ⟨hflags, h128, hext⟩ := parse_free_block f off sz hvb hfh
      rw [parseLoopF_succ, if_pos hlt, if_pos h128, hext]
      exact ih fuel' (off + sz) m (fbPush fb sz off) hrest hfuel'
        (by rw [heof]
            show off + (sz + sizeSum t) = off + sz + sizeSum t
            omega)
    | live k v sz =>
      obtain ⟨h128, hext, hkeyr, hpm⟩ :=
        parse_live_block imv bv f off k v sz hvb hfh
      rw [parseLoopF_succ, if_pos hlt, if_neg (fun hh => hh h128), hext,
        hkeyr, hpm]
      exact ih fuel' (off + sz) (mapSet m k (mkMapV imv bv k v off sz)) fb
        hrest hfuel'
        (by rw [heof]
            show off + (sz + sizeSum t) = off + sz + sizeSum t
            omega)

/-- The index built by the abstract scan answers lookups from the live
entries (for keys on file) or from the accumulator (for the rest). -/
theorem parseAbs_lookup (imv bv : Bool) (L : List BlockInfo) :
    ∀ off m fb k, (liveKeys L).Nodup →
      mapGet (parseAbs imv bv L off m fb).1 k =
        if k ∈ liveKeys L then mapGet (liveEntries imv bv off L) k
        else mapGet m k := by
  induction L with
  | nil =>
    intro off m fb k hnd
    rw [if_neg (show k ∉ liveKeys ([] : List BlockInfo) from
      List.not_mem_nil k)]
    rfl
  | cons b t ih =>
    intro off m fb k hnd
    cases b with
    | free sz =>
      show mapGet (parseAbs imv bv t (off + sz) m (fbPush fb sz off)).1 k = _
      rw [ih (off + sz) m (fbPush fb sz off) k hnd]
      rfl
    | live k0 v0 sz =>
      show mapGet (parseAbs imv bv t (off + sz)
        (mapSet m k0 (mkMapV imv bv k0 v0 off sz)) fb).1 k = _
      have hnd2 : (liveKeys t).Nodup ∧ k0 ∉ liveKeys t := by
        have h1 : (k0 :: liveKeys t).Nodup := hnd
        rw [List.nodup_cons] at h1
        exact ⟨h1.2, h1.1⟩
      rw [ih (off + sz) _ fb k hnd2.1]
      by_cases hmem : k ∈ liveKeys t
      · rw [if_pos hmem]
        have hne : k ≠ k0 := by
          intro he
          subst he
          exact hnd2.2 hmem
        rw [if_pos (show k ∈ liveKeys (BlockInfo.live k0 v0 sz :: t) from
          List.mem_cons_of_mem _ hmem)]
        show mapGet (liveEntries imv bv (off + sz) t) k =
          mapGet ((k0, mkMapV imv bv k0 v0 off sz) ::
            liveEntries imv bv (off + sz) t) k
        rw [show mapGet ((k0, mkMapV imv bv k0 v0 off sz) ::
            liveEntries imv bv (off + sz) t) k =
          if k0 = k then some (mkMapV imv bv k0 v0 off sz)
          else mapGet (liveEntries imv bv (off + sz) t) k from rfl]
        rw [if_neg (fun hh => hne hh.symm)]
      · rw [if_neg hmem]
        by_cases hk0 : k = k0
        · rw [hk0, mapGet_mapSet_self]
          rw [if_pos (show k0 ∈ liveKeys (BlockInfo.live k0 v0 sz :: t) from
            List.mem_cons_self _ _)]
          show some (mkMapV imv bv k0 v0 off sz) =
            mapGet ((k0, mkMapV imv bv k0 v0 off sz) ::
              liveEntries imv bv (off + sz) t) k0
          rw [show mapGet ((k0, mkMapV imv bv k0 v0 off sz) ::
              liveEntries imv bv (off + sz) t) k0 =
            if k0 = k0 then some (mkMapV imv bv k0 v0 off sz)
            else mapGet (liveEntries imv bv (off + sz) t) k0 from rfl]
          rw [if_pos rfl]
        · rw [mapGet_mapSet_ne _ _ _ _ (fun hh => hk0 hh.symm)]
          have hnm : k ∉ liveKeys (BlockInfo.live k0 v0 sz :: t) := by
            intro hm
            rcases List.mem_cons.mp hm with he | hm2
            · exact hk0 he
            · exact hmem hm2
          rw [if_neg hnm]

theorem len_le_sizeSum (L : List BlockInfo) (h : ∀ b ∈ L, 16 ≤ bSize b) :
    L.length ≤ sizeSum L := by
  induction L with
  | nil => simp [sizeSum_nil]
  | cons b t ih =>
    rw [sizeSum_cons, List.length_cons]
    have hb := h b (by simp)
    have ht := ih (fun x hx => h x (by simp [hx]))
    omega

/-- C1: for every store state reachable by set/delete/clear operations on
a file-backed engine, loadDB on a fresh engine with the same configuration
over the resulting file rebuilds an index that gives the same has(k)
answer and the same get(k) value for every key k. -/
theorem c1_load_refinement (S : Store) (hR : Reach S) :
    ∀ k, mapGet (loadFresh S).map k = mapGet S.map k ∧
      hasOp (loadFresh S) k = hasOp S k ∧
      getOp (loadFresh S) k = getOp S k := by
  obtain ⟨hf, hmnd, L, hL, hsum, hmatch, hknd, hreg⟩ := reach_inv S hR
  have hlenf : L.length ≤ S.eof := by
    have h1 := len_le_sizeSum L
      (fun b hb => validBlock_pos b (layoutOk_valid _ _ _ hL b hb))
    omega
  have hparse : parseLoopF S.inMemoryValues S.bufferValues S.file S.eof
      S.eof 0 [] emptyFB =
      parseAbs S.inMemoryValues S.bufferValues L 0 [] emptyFB :=
    parse_of_layout S.inMemoryValues S.bufferValues S.file S.eof L S.eof 0
      [] emptyFB hL hlenf (by omega)
  have hlook : ∀ k, mapGet (loadFresh S).map k = mapGet S.map k := by
    intro k
    show mapGet (parseLoopF S.inMemoryValues S.bufferValues S.file S.eof
      S.eof 0 [] emptyFB).1 k = _
    rw [hparse,
      parseAbs_lookup S.inMemoryValues S.bufferValues L 0 [] emptyFB k hknd,
      hmatch k]
    by_cases hmem : k ∈ liveKeys L
    · rw [if_pos hmem]
    · rw [if_neg hmem, mapGet_liveEntries_none _ _ 0 L k hmem]
      rfl
  intro k
  refine ⟨hlook k, ?_, ?_⟩
  · unfold hasOp
    rw [hlook k]
  · unfold getOp
    rw [hlook k]
    cases hg : mapGet S.map k with
    | none => rfl
    | some mv =>
      rw [Option.elim_some, Option.elim_some]
      show (if S.inMemoryValues then mv.v
          else if (true : Bool) then
            some (decodeVal S.bufferValues
              (readBytes S.file (mv.o + mv.vo) mv.vs))
          else none) =
        (if S.inMemoryValues then mv.v
          else if S.filePath then
            some (decodeVal S.bufferValues
              (readBytes S.file (mv.o + mv.vo) mv.vs))
          else none)
      rw [hf]

theorem c1_load_refinement_witness :
    Reach wStore2 ∧
      (mapGet (loadFresh wStore2).map [97] = mapGet wStore2.map [97] ∧
        hasOp (loadFresh wStore2) [97] = hasOp wStore2 [97] ∧
        getOp (loadFresh wStore2) [97] = getOp wStore2 [97]) := by
  have hR : Reach wStore2 :=
    Reach.set (S := wStore) (k := [97]) (v := Value.str [104, 105])
      (Reach.init false true) rfl
  exact ⟨hR, c1_load_refinement wStore2 hR [97]⟩


end UKV
